import Mathlib

/-!
Verification of the load-balancer discrete-event simulation engine.

This file is a shallow embedding, in Lean 4, of the simulation core of the
repository (src/engine.rs, src/events.rs, src/algorithms/*.rs, src/state.rs,
src/models.rs).  Rust machine integers (u32, u64, usize) are modelled as Nat:
no claim under consideration concerns integer wrap-around, and all quantities
are counters, sizes or millisecond timestamps.  Rust f64 values appearing in
the derived metrics are modelled as exact rationals; the claims touching them
(determinism, independence from the store_assignments flag) are insensitive to
the rounding model.  The std BinaryHeap of events (a min-heap via Reverse) is
modelled as a list kept sorted by the total comparison ScheduledEvent.cmp;
popping the heap minimum is taking the head of the sorted list.  Two distinct
events comparing equal never coexist in a reachable queue, so the choice of
order among equal elements is immaterial.  The two sources of randomness
(StdRng for Poisson arrival sampling and for seeded tie-breaks) are modelled
as oracle parameters: a run is a pure function of the configuration and of the
seed-indexed oracle streams, exactly as the code is a pure function of the
configuration once StdRng's (deterministic) output is abstracted.
-/

namespace LoadBalancerSim

/-- Comparison of two Nat values, the embedding of Ord::cmp on Rust unsigned
integers (u64/usize). -/
def natCmp (a b : Nat) : Ordering :=
  if a < b then .lt else if a = b then .eq else .gt

/-- ServerConfig from src/models.rs: immutable per-server configuration. -/
structure ServerConfig where
  name : String
  base_latency_ms : Nat
  weight : Nat
deriving DecidableEq

/-- RequestProfile from src/models.rs (the snapshot of models.rs in the tree
is stale and lacks the Burst constructor; its shape is taken from its uses in
src/engine.rs and src/config.rs).  The f64 Poisson rate is modelled as an
exact rational. -/
inductive RequestProfile where
  | FixedCount (count : Nat)
  | Poisson (rate : Rat) (duration_ms : Nat)
  | Burst (count : Nat) (at_ms : Nat)
deriving DecidableEq

/-- AlgoConfig from src/models.rs. -/
inductive AlgoConfig where
  | RoundRobin
  | WeightedRoundRobin
  | LeastConnections
  | LeastResponseTime
deriving DecidableEq

/-- TieBreakConfig from src/models.rs. -/
inductive TieBreakConfig where
  | Stable
  | Seeded
deriving DecidableEq

/-- SimConfig from src/models.rs. -/
structure SimConfig where
  servers : List ServerConfig
  requests : RequestProfile
  algo : AlgoConfig
  tie_break : TieBreakConfig
  seed : Option Nat
deriving DecidableEq

/-- The error type used by src/engine.rs (the variants match the SimError
enum of src/error.rs; engine.rs uses exactly these constructors). -/
inductive Error where
  | EmptyServers
  | RequestsZero
  | DuplicateServerName (name : String)
  | InvalidServerEntry (entry : String)
  | InvalidLatencyValue (entry : String)
  | InvalidWeightValue (entry : String)
  | InvalidRequestRate (rate : Rat)
  | InvalidRequestDuration (duration : Nat)
  | InvalidTieBreakSeed
deriving DecidableEq

/-- Request from src/events.rs. -/
structure Request where
  id : Nat
  arrival_time_ms : Nat
deriving DecidableEq

/-- Event from src/events.rs. -/
inductive Event where
  | RequestArrival (request : Request)
  | RequestComplete (server_id : Nat) (request_id : Nat)
deriving DecidableEq

/-- ScheduledEvent from src/events.rs. -/
structure ScheduledEvent where
  time_ms : Nat
  event : Event
deriving DecidableEq

/-- Event::priority from src/events.rs: completions sort before arrivals at
equal time. -/
def Event.priority : Event → Nat
  | .RequestComplete _ _ => 0
  | .RequestArrival _ => 1

/-- Event::tiebreaker from src/events.rs.  Note: for RequestComplete the code
returns the request_id field, not the server_id. -/
def Event.tiebreaker : Event → Nat
  | .RequestComplete _ request_id => request_id
  | .RequestArrival request => request.id

/-- impl Ord for ScheduledEvent from src/events.rs: time, then event priority,
then event tiebreaker, chained with Ordering::then_with. -/
def ScheduledEvent.cmp (a b : ScheduledEvent) : Ordering :=
  ((natCmp a.time_ms b.time_ms).then
    (natCmp a.event.priority b.event.priority)).then
    (natCmp a.event.tiebreaker b.event.tiebreaker)

/-- Tertiary comparison key as the specification describes it (claim C2):
"the event's own numeric id (server_id for completions, request id for
arrivals)".  This definition follows the spec's words, to be compared with
Event.tiebreaker, which is what the code implements. -/
def specTiebreakerOfSpec : Event → Nat
  | .RequestComplete server_id _ => server_id
  | .RequestArrival request => request.id

/-- The event comparison as the specification describes it (claim C2): same
primary and secondary keys as the code, but with the spec's tertiary key. -/
def specCmpOfSpec (a b : ScheduledEvent) : Ordering :=
  ((natCmp a.time_ms b.time_ms).then
    (natCmp a.event.priority b.event.priority)).then
    (natCmp (specTiebreakerOfSpec a.event) (specTiebreakerOfSpec b.event))

/-- Nonstrict ordering induced by ScheduledEvent.cmp (a is popped no later
than b). -/
def ScheduledEvent.le (a b : ScheduledEvent) : Prop :=
  ScheduledEvent.cmp a b ≠ .gt

instance (a b : ScheduledEvent) : Decidable (ScheduledEvent.le a b) := by
  unfold ScheduledEvent.le; infer_instance

/-- Insertion into the pending-event queue.  The Rust code stores events in a
std BinaryHeap of Reverse-wrapped ScheduledEvent values; we model the heap as
a list kept sorted in ascending ScheduledEvent.cmp order, inserting each new
event before the first queued event it does not exceed.  Popping the heap
minimum is then taking the list head. -/
def pushEvent (e : ScheduledEvent) : List ScheduledEvent → List ScheduledEvent
  | [] => [e]
  | f :: rest =>
      if ScheduledEvent.le e f then e :: f :: rest else f :: pushEvent e rest

/-- Termination measure contribution of one queued event: an arrival will
push one completion when processed, a completion pushes nothing. -/
def Event.load : Event → Nat
  | .RequestArrival _ => 2
  | .RequestComplete _ _ => 1

/-- Termination measure of the queue. -/
def queueLoad : List ScheduledEvent → Nat
  | [] => 0
  | se :: q => se.event.load + queueLoad q

/-- Number of pending completion events for server i in the queue. -/
def countCompl (q : List ScheduledEvent) (i : Nat) : Nat :=
  q.countP fun se =>
    match se.event with
    | .RequestComplete sid _ => sid = i
    | .RequestArrival _ => false

/-- Number of pending arrival events in the queue. -/
def countArr (q : List ScheduledEvent) : Nat :=
  q.countP fun se =>
    match se.event with
    | .RequestComplete _ _ => false
    | .RequestArrival _ => true

/-- ServerState from src/state.rs: mutable per-server counters owned by the
engine for one run. -/
structure ServerState where
  id : Nat
  name : String
  base_latency_ms : Nat
  weight : Nat
  active_connections : Nat
  pick_count : Nat
  in_flight : Nat
  next_available_ms : Nat
deriving DecidableEq

instance : Inhabited ServerState :=
  ⟨⟨0, "", 0, 0, 0, 0, 0, 0⟩⟩

/-- init_server_state from src/engine.rs. -/
def init_server_state (servers : List ServerConfig) : List ServerState :=
  servers.enum.map fun (id, server) =>
    { id := id
      name := server.name
      base_latency_ms := server.base_latency_ms
      weight := server.weight
      active_connections := 0
      pick_count := 0
      in_flight := 0
      next_available_ms := 0 }

/-- Assignment from src/state.rs. -/
structure Assignment where
  request_id : Nat
  server_id : Nat
  arrival_time_ms : Nat
  started_at : Nat
  completed_at : Nat
  score : Option Nat
deriving DecidableEq

/-- u32::MAX, the initial minimum in the least-connections scan. -/
def u32MAX : Nat := 4294967295

/-- u64::MAX, the initial minimum in the least-response-time scan. -/
def u64MAX : Nat := 18446744073709551615

/-- Selection from src/algorithms/mod.rs. -/
structure Selection where
  server_id : Nat
  score : Option Nat
deriving DecidableEq

/-- Per-variant strategy state.  The Rust code uses four struct types behind
a trait object built by build_strategy; their mutable fields are gathered in
one sum type here.  The scratch candidates vector of LeastConnectionsStrategy
is recomputed per call (clear() at entry), so it carries no state between
calls and is not a field here. -/
inductive StrategyState where
  | roundRobin (next_idx : Nat)
  | weightedRoundRobin (cursor : Nat) (total_weight : Nat)
      (prefixSums : List Nat) (cached_len : Nat)
  | leastConnections
  | leastResponseTime
deriving DecidableEq

/-- build_strategy from src/algorithms/mod.rs (Default-derived field values). -/
def build_strategy : AlgoConfig → StrategyState
  | .RoundRobin => .roundRobin 0
  | .WeightedRoundRobin => .weightedRoundRobin 0 0 [] 0
  | .LeastConnections => .leastConnections
  | .LeastResponseTime => .leastResponseTime

/-- Running prefix totals, the loop body of
WeightedRoundRobinStrategy::rebuild_cache from
src/algorithms/weighted_round_robin.rs: element i is the sum of the first
i+1 weights. -/
def runningTotals (acc : Nat) : List Nat → List Nat
  | [] => []
  | w :: ws => (acc + w) :: runningTotals (acc + w) ws

/-- Core loop of std slice binary_search_by as invoked by
WeightedRoundRobinStrategy::select: the comparator returns Greater exactly
when the probed prefix sum exceeds the target (it never returns Equal), and
the Err insertion point is returned. -/
def bsLoop (ps : List Nat) (target : Nat) (left right : Nat) : Nat :=
  if h : left < right then
    if target < ps.getD (left + (right - left) / 2) 0 then
      bsLoop ps target left (left + (right - left) / 2)
    else
      bsLoop ps target (left + (right - left) / 2 + 1) right
  else left
termination_by right - left
decreasing_by all_goals omega

/-- Minimum-score scan loop shared, with identical shape, by
LeastConnectionsStrategy::select (f = active_connections, m₀ = u32::MAX) and
LeastResponseTimeStrategy::select (f = the latency score, m₀ = u64::MAX):
walk the enumerated servers keeping the least f-value seen and the list of
indices attaining it, in index order. -/
def scanCandidates (f : ServerState → Nat) (idx min_count : Nat)
    (candidates : List Nat) : List ServerState → Nat × List Nat
  | [] => (min_count, candidates)
  | s :: rest =>
      if f s < min_count then
        scanCandidates f (idx + 1) (f s) [idx] rest
      else if f s = min_count then
        scanCandidates f (idx + 1) min_count (candidates ++ [idx]) rest
      else
        scanCandidates f (idx + 1) min_count candidates rest

/-- Score formula of LeastResponseTimeStrategy::select from
src/algorithms/least_response_time.rs. -/
def lrtScore (s : ServerState) : Nat :=
  s.base_latency_ms + s.pick_count * 10

/-- One SelectionStrategy::select call.  draw n models rand's
gen_range(0..n) on the RNG handle threaded by the engine for this call; the
returned Bool records whether the call consumed a draw (it does exactly when
a tie among two or more candidates is resolved).  Round-robin and weighted
round-robin never touch the RNG. -/
def selectStep (strat : StrategyState) (servers : List ServerState)
    (draw : Nat → Nat) : Selection × StrategyState × Bool :=
  match strat with
  | .roundRobin next_idx =>
      (⟨next_idx % servers.length, none⟩,
        .roundRobin ((next_idx + 1) % servers.length), false)
  | .weightedRoundRobin cursor total_weight prefixSums cached_len =>
      let cache :=
        if prefixSums.isEmpty || cached_len ≠ servers.length then
          ((servers.map (·.weight)).sum,
            runningTotals 0 (servers.map (·.weight)), servers.length)
        else (total_weight, prefixSums, cached_len)
      let target := cursor % cache.1
      let selected := bsLoop cache.2.1 target 0 cache.2.1.length
      (⟨selected, none⟩,
        .weightedRoundRobin ((cursor + 1) % cache.1) cache.1 cache.2.1 cache.2.2,
        false)
  | .leastConnections =>
      let scanned := scanCandidates (·.active_connections) 0 u32MAX [] servers
      if scanned.2.length = 1 then
        (⟨scanned.2.getD 0 0, none⟩, .leastConnections, false)
      else
        (⟨scanned.2.getD (draw scanned.2.length) 0, none⟩, .leastConnections, true)
  | .leastResponseTime =>
      let scanned := scanCandidates lrtScore 0 u64MAX [] servers
      if scanned.2.length = 1 then
        (⟨scanned.2.getD 0 0, some scanned.1⟩, .leastResponseTime, false)
      else
        (⟨scanned.2.getD (draw scanned.2.length) 0, some scanned.1⟩,
          .leastResponseTime, true)

/-- Iterated selection: the sequence of server indices chosen by n successive
select calls on a fixed server-state snapshot (as in the strategy unit
tests), threading the strategy state. -/
def selectPicks (strat : StrategyState) (servers : List ServerState)
    (draw : Nat → Nat) : Nat → List Nat
  | 0 => []
  | n + 1 =>
      let step := selectStep strat servers draw
      step.1.server_id :: selectPicks step.2.1 servers draw n

/-- server.name.trim().is_empty() from validate_config in src/engine.rs:
true iff the name consists solely of whitespace characters (trimming all
whitespace leaves the empty string exactly when every character is
whitespace). -/
def trimEmpty (s : String) : Bool :=
  s.data.all fun c => c.isWhitespace

/-- Per-server iteration of validate_config from src/engine.rs: the first
violation is returned; names carries the set of server names already seen
(the HashSet of the code, modelled as a list used only for membership). -/
def validateServers (names : List String) : List ServerConfig → Except Error Unit
  | [] => .ok ()
  | server :: rest =>
      if trimEmpty server.name then .error (.InvalidServerEntry server.name)
      else if server.base_latency_ms = 0 then .error (.InvalidLatencyValue server.name)
      else if server.weight = 0 then .error (.InvalidWeightValue server.name)
      else if names.contains server.name then .error (.DuplicateServerName server.name)
      else validateServers (server.name :: names) rest

/-- validate_config from src/engine.rs. -/
def validate_config (config : SimConfig) : Except Error Unit :=
  if config.servers.isEmpty then .error .EmptyServers
  else
    match validateServers [] config.servers with
    | .error e => .error e
    | .ok _ =>
        match
          (match config.requests with
            | .FixedCount count =>
                if count = 0 then .error .RequestsZero else .ok ()
            | .Poisson rate duration_ms =>
                if rate ≤ 0 then .error (.InvalidRequestRate rate)
                else if duration_ms = 0 then .error (.InvalidRequestDuration duration_ms)
                else .ok ()
            | .Burst count _ =>
                if count = 0 then .error .RequestsZero else .ok ()
            : Except Error Unit)
        with
        | .error e => .error e
        | .ok _ =>
            match config.tie_break, config.seed with
            | .Seeded, none => .error .InvalidTieBreakSeed
            | _, _ => .ok ()

/-- build_requests from src/engine.rs.  The Poisson arm's sampling loop draws
f64 uniforms from StdRng and accumulates exponential inter-arrival times;
that numeric stream is abstracted as the oracle poissonGen (seed, rate,
duration to generated request list), and the code's emptiness check on its
output is kept. -/
def build_requests (poissonGen : Nat → Rat → Nat → List Request)
    (profile : RequestProfile) (seed : Option Nat) : Except Error (List Request) :=
  match profile with
  | .FixedCount count =>
      if count = 0 then .error .RequestsZero
      else .ok ((List.range count).map fun idx => ⟨idx + 1, idx⟩)
  | .Poisson rate duration_ms =>
      if rate ≤ 0 then .error (.InvalidRequestRate rate)
      else if duration_ms = 0 then .error (.InvalidRequestDuration duration_ms)
      else
        let requests := poissonGen (seed.getD 0) rate duration_ms
        if requests.isEmpty then .error .RequestsZero
        else .ok requests
  | .Burst count at_ms =>
      if count = 0 then .error .RequestsZero
      else .ok ((List.range count).map fun idx => ⟨idx + 1, at_ms⟩)

/-- Mutable state of the SimulationEngine main loop from src/engine.rs: the
EngineState fields (time_ms, servers, assignments) together with the local
accumulators of run, the strategy state, and the count of RNG draws consumed
by seeded tie-breaks (the StdRng position).  popped_times and underflow are
ghost instrumentation: the sequence of popped event timestamps, and whether a
RequestComplete event ever decremented an active_connections counter that was
already zero (a u32 underflow); neither influences any other field. -/
structure LoopSt where
  time_ms : Nat
  servers : List ServerState
  assignments : List Assignment
  counts : List Nat
  total_response_ms : List Nat
  total_service_ms : List Nat
  response_times : List Nat
  total_wait_ms : Nat
  duration_ms : Nat
  strat : StrategyState
  rngCalls : Nat
  popped_times : List Nat
  underflow : Bool
deriving DecidableEq

/-- RequestComplete branch of the engine loop from src/engine.rs: decrement
the server's active_connections and in_flight, nothing else. -/
def completionStep (server_id : Nat) (st : LoopSt) : LoopSt :=
  let server := st.servers.getD server_id default
  { st with
    underflow := st.underflow || decide (server.active_connections = 0)
    servers := st.servers.set server_id
      { server with
        active_connections := server.active_connections - 1
        in_flight := server.in_flight - 1 } }

/-- RequestArrival branch of the engine loop from src/engine.rs: select a
server, bump its counters, compute started_at / completed_at, update the
running aggregates and (when store is set) record the Assignment; the
returned event is the RequestComplete to be pushed at completed_at. -/
def arrivalStep (store : Bool) (draw : Nat → Nat) (request : Request)
    (st : LoopSt) : LoopSt × ScheduledEvent :=
  let step := selectStep st.strat st.servers draw
  let server_idx := step.1.server_id
  let server0 := st.servers.getD server_idx default
  let server1 := { server0 with
    active_connections := server0.active_connections + 1
    pick_count := server0.pick_count + 1
    in_flight := server0.in_flight + 1 }
  let started_at := max st.time_ms server1.next_available_ms
  let completed_at := started_at + server1.base_latency_ms
  let response_time := completed_at - request.arrival_time_ms
  let service_time := completed_at - started_at
  let wait_time := started_at - request.arrival_time_ms
  ({ st with
      servers := st.servers.set server_idx
        { server1 with next_available_ms := completed_at }
      counts := st.counts.set server_idx (st.counts.getD server_idx 0 + 1)
      total_response_ms := st.total_response_ms.set server_idx
        (st.total_response_ms.getD server_idx 0 + response_time)
      total_service_ms := st.total_service_ms.set server_idx
        (st.total_service_ms.getD server_idx 0 + service_time)
      response_times := st.response_times ++ [response_time]
      total_wait_ms := st.total_wait_ms + wait_time
      duration_ms := max st.duration_ms completed_at
      strat := step.2.1
      rngCalls := st.rngCalls + (if step.2.2 then 1 else 0)
      assignments :=
        if store then
          st.assignments ++
            [⟨request.id, server_idx, request.arrival_time_ms, started_at,
              completed_at, step.1.score⟩]
        else st.assignments },
    ⟨completed_at, .RequestComplete server_idx request.id⟩)

/-- RNG handle passed to one select call, as picked in the arrival branch of
src/engine.rs.  Under Stable the handle is StableRng, the all-zero bit
stream: rand's uniform integer sampling (widening multiply) maps the zero
stream to 0, so its gen_range(0..n) is constantly 0, independent of any
seed.  Under Seeded the handle is the engine's StdRng; its gen_range(0..n)
outputs are abstracted as a seed- and call-indexed oracle, reduced mod n to
reflect gen_range's in-range contract. -/
def eventDraw (tb : TieBreakConfig) (seed : Nat)
    (oracle : Nat → Nat → Nat → Nat) (calls : Nat) : Nat → Nat :=
  match tb with
  | .Stable => fun _ => 0
  | .Seeded => fun n => oracle seed calls n % n

/-- Main event loop of SimulationEngine::run from src/engine.rs: pop the
minimum scheduled event (head of the sorted queue), advance the clock to its
timestamp, and dispatch on the event kind.  Terminates because an arrival
replaces itself by one completion and a completion is simply consumed. -/
def runLoop (tb : TieBreakConfig) (seed : Nat)
    (oracle : Nat → Nat → Nat → Nat) (store : Bool) :
    List ScheduledEvent → LoopSt → LoopSt
  | [], st => st
  | ⟨t, .RequestComplete server_id _⟩ :: q, st =>
      runLoop tb seed oracle store q
        (completionStep server_id
          { st with time_ms := t, popped_times := st.popped_times ++ [t] })
  | ⟨t, .RequestArrival request⟩ :: q, st =>
      let st1 := { st with time_ms := t, popped_times := st.popped_times ++ [t] }
      let step := arrivalStep store (eventDraw tb seed oracle st1.rngCalls) request st1
      runLoop tb seed oracle store (pushEvent step.2 q) step.1
termination_by q _ => queueLoad q
decreasing_by
  · simp only [queueLoad, Event.load]
    omega
  · have hpush : ∀ (e : ScheduledEvent) (l : List ScheduledEvent),
        queueLoad (pushEvent e l) = e.event.load + queueLoad l := by
      intro e l
      induction l with
      | nil => simp [pushEvent, queueLoad]
      | cons f rest ih =>
          by_cases hle : ScheduledEvent.le e f <;>
            simp [pushEvent, hle, queueLoad] <;> omega
    have h1 : ∀ (d : Nat → Nat) (st' : LoopSt),
        (arrivalStep store d request st').2.event.load = 1 := fun d st' => rfl
    rw [hpush, h1]
    simp only [queueLoad, Event.load]
    omega

/-- ServerSummary from src/state.rs. -/
structure ServerSummary where
  name : String
  requests : Nat
  avg_response_ms : Nat
deriving DecidableEq

/-- ResponseTimePercentiles from src/state.rs. -/
structure ResponseTimePercentiles where
  p95_ms : Option Nat
  p99_ms : Option Nat
deriving DecidableEq

/-- ServerUtilization from src/state.rs (f64 modelled as Rat). -/
structure ServerUtilization where
  name : String
  utilization_pct : Rat
deriving DecidableEq

/-- Phase1Metrics from src/state.rs (f64 modelled as Rat). -/
structure Phase1Metrics where
  response_time : ResponseTimePercentiles
  per_server_utilization : List ServerUtilization
  jain_fairness : Rat
  throughput_rps : Rat
  avg_wait_ms : Nat
deriving DecidableEq

/-- RunMetadata from src/state.rs. -/
structure RunMetadata where
  algo : String
  tie_break : String
  duration_ms : Nat
deriving DecidableEq

/-- SimulationResult from src/state.rs. -/
structure SimulationResult where
  assignments : List Assignment
  totals : List ServerSummary
  metadata : RunMetadata
  phase1_metrics : Phase1Metrics
deriving DecidableEq

/-- nearest_rank_percentile from src/engine.rs, on an ascending-sorted list.
The f64 arithmetic (percentile / 100 * n, then ceil, then cast to usize) is
modelled exactly over the rationals. -/
def nearest_rank_percentile (sorted : List Nat) (percentile : Rat) : Option Nat :=
  if sorted.isEmpty then none
  else
    let rank := (⌈percentile / 100 * (sorted.length : Rat)⌉).toNat
    some (sorted.getD (min (rank - 1) (sorted.length - 1)) 0)

/-- round_to from src/engine.rs.  f64::round rounds half away from zero;
every value rounded by the code is nonnegative, where that agrees with the
round-half-up convention of Mathlib's round used here. -/
def round_to (value : Rat) (decimals : Nat) : Rat :=
  if decimals = 0 then ((round value : Int) : Rat)
  else ((round (value * 10 ^ decimals) : Int) : Rat) / 10 ^ decimals

/-- Modelled from the spec: the Display string of AlgoConfig used for
RunMetadata.algo.  The Display impl is absent from the stale models.rs
snapshot; per the serde kebab-case renaming there and the literal expected
output in src/output.rs tests, the names are kebab-case. -/
def AlgoConfig.displayName : AlgoConfig → String
  | .RoundRobin => "round-robin"
  | .WeightedRoundRobin => "weighted-round-robin"
  | .LeastConnections => "least-connections"
  | .LeastResponseTime => "least-response-time"

/-- Modelled from the spec: TieBreakConfig::label_with_seed, the tie-break
description placed in RunMetadata (absent from the stale models.rs
snapshot).  The src/output.rs tests show "stable" for the Stable mode; the
Seeded label is rendered with its seed.  No claim depends on the exact
strings: they are opaque deterministic values. -/
def TieBreakConfig.label_with_seed : TieBreakConfig → Option Nat → String
  | .Stable, _ => "stable"
  | .Seeded, seed => "seeded:" ++ toString (seed.getD 0)

/-- Seed choice of SimulationEngine::new from src/engine.rs: the configured
seed (defaulting to 0) under Seeded, the fixed seed 0 under Stable (where
the StdRng is never consulted). -/
def engineSeed (config : SimConfig) : Nat :=
  match config.tie_break with
  | .Seeded => config.seed.getD 0
  | .Stable => 0

/-- Queue-seeding loop of SimulationEngine::run from src/engine.rs: push one
RequestArrival per generated request and fold the minimum arrival time
(first_arrival_ms). -/
def seedQueue (requests : List Request) : List ScheduledEvent × Option Nat :=
  requests.foldl
    (fun acc r =>
      (pushEvent ⟨r.arrival_time_ms, .RequestArrival r⟩ acc.1,
        some (match acc.2 with
          | some current => min current r.arrival_time_ms
          | none => r.arrival_time_ms)))
    ([], none)

/-- Initial engine state of SimulationEngine::run from src/engine.rs: zeroed
servers, empty assignment list, zeroed accumulators sized to the server
count, freshly built strategy. -/
def initState (config : SimConfig) : LoopSt :=
  { time_ms := 0
    servers := init_server_state config.servers
    assignments := []
    counts := List.replicate config.servers.length 0
    total_response_ms := List.replicate config.servers.length 0
    total_service_ms := List.replicate config.servers.length 0
    response_times := []
    total_wait_ms := 0
    duration_ms := 0
    strat := build_strategy config.algo
    rngCalls := 0
    popped_times := []
    underflow := false }

/-- Whole event loop of one engine run on an already generated request list. -/
def engine_run (tieOracle : Nat → Nat → Nat → Nat) (config : SimConfig)
    (store : Bool) (requests : List Request) : LoopSt :=
  runLoop config.tie_break (engineSeed config) tieOracle store
    (seedQueue requests).1 (initState config)

/-- Post-loop aggregation of SimulationEngine::run from src/engine.rs:
per-server totals, sorted response-time percentiles, active-window duration
(excluding the pre-roll offset for a delayed burst), utilization, Jain
fairness, throughput and average wait. -/
def finalize (config : SimConfig) (store : Bool) (first_arrival_ms : Option Nat)
    (final : LoopSt) : SimulationResult :=
  let totals : List ServerSummary := final.servers.enum.map fun (idx, server) =>
    { name := server.name
      requests := final.counts.getD idx 0
      avg_response_ms :=
        if final.counts.getD idx 0 = 0 then 0
        else final.total_response_ms.getD idx 0 / final.counts.getD idx 0 }
  let sortedTimes := final.response_times.insertionSort (· ≤ ·)
  let active_duration_ms : Nat :=
    match config.requests with
    | .Burst _ at_ms =>
        if 0 < at_ms then final.duration_ms - first_arrival_ms.getD 0
        else final.duration_ms
    | _ => final.duration_ms
  let per_server_utilization : List ServerUtilization :=
    final.servers.enum.map fun (idx, server) =>
      { name := server.name
        utilization_pct :=
          round_to
            (if active_duration_ms = 0 then 0
             else (final.total_service_ms.getD idx 0 : Rat) / (active_duration_ms : Rat) * 100)
            2 }
  let total_requests := final.counts.sum
  let throughput_rps : Rat :=
    if active_duration_ms = 0 then 0
    else (total_requests : Rat) / (active_duration_ms : Rat) * 1000
  let avg_wait_ms :=
    if total_requests = 0 then 0 else final.total_wait_ms / total_requests
  let s : Rat := (final.counts.map fun c => (c : Rat)).sum
  let s2 : Rat := (final.counts.map fun c => (c : Rat) * c).sum
  let jain_fairness : Rat :=
    if s = 0 ∨ s2 = 0 then 0 else s * s / ((final.counts.length : Rat) * s2)
  { assignments := if store then final.assignments else []
    totals := totals
    metadata :=
      { algo := config.algo.displayName
        tie_break := config.tie_break.label_with_seed config.seed
        duration_ms := active_duration_ms }
    phase1_metrics :=
      { response_time :=
          { p95_ms := nearest_rank_percentile sortedTimes 95
            p99_ms := nearest_rank_percentile sortedTimes 99 }
        per_server_utilization := per_server_utilization
        jain_fairness := round_to jain_fairness 4
        throughput_rps := round_to throughput_rps 2
        avg_wait_ms := avg_wait_ms } }

/-- run_simulation / run_simulation_with_options from src/engine.rs:
validate, generate the requests, run the event loop, aggregate.  tieOracle
abstracts the StdRng tie-break stream and poissonGen the StdRng Poisson
sampling (see eventDraw and build_requests); the run is a pure function of
the configuration and these seed-indexed streams. -/
def run_simulation (tieOracle : Nat → Nat → Nat → Nat)
    (poissonGen : Nat → Rat → Nat → List Request) (config : SimConfig)
    (store_assignments : Bool) : Except Error SimulationResult :=
  match validate_config config with
  | .error e => .error e
  | .ok _ =>
      match build_requests poissonGen config.requests config.seed with
      | .error e => .error e
      | .ok requests =>
          .ok (finalize config store_assignments (seedQueue requests).2
            (engine_run tieOracle config store_assignments requests))

/-- Ascending sortedness of the modelled event queue: every element is popped
no later than every element behind it. -/
def qSorted (q : List ScheduledEvent) : Prop :=
  List.Pairwise ScheduledEvent.le q

/-- Least f-value over a server list starting from m: the value the min
accumulator of the scanCandidates loop holds on exit. -/
def scanMin (f : ServerState → Nat) (m : Nat) (l : List ServerState) : Nat :=
  l.foldl (fun acc s => min acc (f s)) m

/-- Indices (offset by idx) of the servers whose f-value equals m, in index
order: the candidate list the scanCandidates loop accumulates. -/
def attainIdx (f : ServerState → Nat) (idx m : Nat) : List ServerState → List Nat
  | [] => []
  | s :: rest =>
      if f s = m then idx :: attainIdx f (idx + 1) m rest
      else attainIdx f (idx + 1) m rest

/-- Well-formedness of the weighted-round-robin prefix-sum cache relative to
the weight list ws of the current servers: either the cache is still the
empty Default (next select rebuilds it) or it is exactly the running totals
of ws with matching total and length. -/
def wrrCacheOK (strat : StrategyState) (ws : List Nat) : Prop :=
  match strat with
  | .weightedRoundRobin _ total_weight prefixSums cached_len =>
      prefixSums = [] ∨
        (cached_len = ws.length ∧ prefixSums = runningTotals 0 ws ∧
          total_weight = ws.sum)
  | _ => True

/-- Master invariant of the engine loop, relative to the constant server
count L0, the constant weight list W0 and the total number N of generated
requests.  It ties each server's active_connections to the number of its
pending completion events, keeps the queue sorted and ahead of the clock,
and keeps the processed-so-far accounting consistent. -/
structure LoopInv (L0 : Nat) (W0 : List Nat) (N : Nat)
    (q : List ScheduledEvent) (st : LoopSt) : Prop where
  servers_len : st.servers.length = L0
  weights_eq : st.servers.map (fun s => s.weight) = W0
  weights_pos : ∀ w ∈ W0, 1 ≤ w
  len_pos : 0 < L0
  counts_len : st.counts.length = L0
  cache_ok : wrrCacheOK st.strat W0
  active_eq : ∀ i, i < L0 →
    (st.servers.getD i default).active_connections = countCompl q i
  compl_ok : ∀ se ∈ q, ∀ sid rid, se.event = .RequestComplete sid rid → sid < L0
  sorted : qSorted q
  time_le : ∀ se ∈ q, st.time_ms ≤ se.time_ms
  popped_le : ∀ x ∈ st.popped_times, x ≤ st.time_ms
  popped_chain : List.Chain' (· ≤ ·) st.popped_times
  count_sum : st.counts.sum + countArr q = N
  no_underflow : st.underflow = false

/-- Oracle for a tie-break stream that always returns 0 (any fixed stream
works for the Stable-mode examples, where the oracle is never consulted). -/
def zeroTieOracle : Nat → Nat → Nat → Nat := fun _ _ _ => 0

/-- Oracle for the Poisson sampler returning no requests (never consulted by
the FixedCount and Burst examples). -/
def emptyPoissonGen : Nat → Rat → Nat → List Request := fun _ _ _ => []

/-- Example configuration: one server, unit latency, one request, round
robin, stable tie-break. -/
def sampleConfigA : SimConfig :=
  { servers := [{ name := "a", base_latency_ms := 1, weight := 1 }]
    requests := .FixedCount 1
    algo := .RoundRobin
    tie_break := .Stable
    seed := none }

/-- Example configuration of the spec's §8 latency scenario: one server with
base_latency_ms = 5, two FixedCount requests, round robin, stable. -/
def sampleConfigB : SimConfig :=
  { servers := [{ name := "api", base_latency_ms := 5, weight := 1 }]
    requests := .FixedCount 2
    algo := .RoundRobin
    tie_break := .Stable
    seed := none }

/-- The full simulation result of sampleConfigA (checked by eval_runA). -/
def resultA : SimulationResult :=
  { assignments := [⟨1, 0, 0, 0, 1, none⟩]
    totals := [⟨"a", 1, 1⟩]
    metadata := ⟨"round-robin", "stable", 1⟩
    phase1_metrics :=
      { response_time := ⟨some 1, some 1⟩
        per_server_utilization := [⟨"a", 100⟩]
        jain_fairness := 1
        throughput_rps := 1000
        avg_wait_ms := 0 } }

/-- The full simulation result of sampleConfigB (checked by eval_runB). -/
def resultB : SimulationResult :=
  { assignments := [⟨1, 0, 0, 0, 5, none⟩, ⟨2, 0, 1, 5, 10, none⟩]
    totals := [⟨"api", 2, 7⟩]
    metadata := ⟨"round-robin", "stable", 10⟩
    phase1_metrics :=
      { response_time := ⟨some 9, some 9⟩
        per_server_utilization := [⟨"api", 100⟩]
        jain_fairness := 1
        throughput_rps := 200
        avg_wait_ms := 2 } }

/-! Order-theoretic facts about the event comparison. -/

theorem cmp_eq_lt_iff (a b : ScheduledEvent) :
    ScheduledEvent.cmp a b = .lt ↔
      (a.time_ms < b.time_ms ∨ (a.time_ms = b.time_ms ∧
        (a.event.priority < b.event.priority ∨
          (a.event.priority = b.event.priority ∧
            a.event.tiebreaker < b.event.tiebreaker)))) := by
  unfold ScheduledEvent.cmp natCmp
  split_ifs <;> simp_all [Ordering.then] <;> omega

theorem cmp_eq_gt_iff (a b : ScheduledEvent) :
    ScheduledEvent.cmp a b = .gt ↔
      (b.time_ms < a.time_ms ∨ (b.time_ms = a.time_ms ∧
        (b.event.priority < a.event.priority ∨
          (b.event.priority = a.event.priority ∧
            b.event.tiebreaker < a.event.tiebreaker)))) := by
  unfold ScheduledEvent.cmp natCmp
  split_ifs <;> simp_all [Ordering.then] <;> omega

theorem cmp_eq_eq_iff (a b : ScheduledEvent) :
    ScheduledEvent.cmp a b = .eq ↔
      (a.time_ms = b.time_ms ∧ a.event.priority = b.event.priority ∧
        a.event.tiebreaker = b.event.tiebreaker) := by
  unfold ScheduledEvent.cmp natCmp
  split_ifs <;> simp_all [Ordering.then] <;> omega

theorem le_iff (a b : ScheduledEvent) :
    ScheduledEvent.le a b ↔
      (a.time_ms < b.time_ms ∨ (a.time_ms = b.time_ms ∧
        (a.event.priority < b.event.priority ∨
          (a.event.priority = b.event.priority ∧
            a.event.tiebreaker ≤ b.event.tiebreaker)))) := by
  unfold ScheduledEvent.le
  rw [show (ScheduledEvent.cmp a b ≠ .gt ↔ ¬ ScheduledEvent.cmp a b = .gt) from Iff.rfl,
    cmp_eq_gt_iff]
  omega

theorem le_total_ev (a b : ScheduledEvent) :
    ScheduledEvent.le a b ∨ ScheduledEvent.le b a := by
  rw [le_iff, le_iff]
  omega

theorem le_trans_ev {a b c : ScheduledEvent} (hab : ScheduledEvent.le a b)
    (hbc : ScheduledEvent.le b c) : ScheduledEvent.le a c := by
  rw [le_iff] at *
  omega

theorem le_time_mono {a b : ScheduledEvent} (h : ScheduledEvent.le a b) :
    a.time_ms ≤ b.time_ms := by
  rw [le_iff] at h
  omega

theorem cmp_swap_ev (a b : ScheduledEvent) :
    ScheduledEvent.cmp b a = (ScheduledEvent.cmp a b).swap := by
  rcases hab : ScheduledEvent.cmp a b with _ | _ | _
  · rw [cmp_eq_lt_iff] at hab
    have : ScheduledEvent.cmp b a = .gt := by rw [cmp_eq_gt_iff]; omega
    simp [this, Ordering.swap]
  · rw [cmp_eq_eq_iff] at hab
    have : ScheduledEvent.cmp b a = .eq := by rw [cmp_eq_eq_iff]; omega
    simp [this, Ordering.swap]
  · rw [cmp_eq_gt_iff] at hab
    have : ScheduledEvent.cmp b a = .lt := by rw [cmp_eq_lt_iff]; omega
    simp [this, Ordering.swap]

/-! Queue lemmas: pushEvent as an ordered insertion. -/

theorem pushEvent_perm (e : ScheduledEvent) (q : List ScheduledEvent) :
    (pushEvent e q).Perm (e :: q) := by
  induction q with
  | nil => simp [pushEvent]
  | cons f rest ih =>
      by_cases hle : ScheduledEvent.le e f
      · simp [pushEvent, hle]
      · simp only [pushEvent, if_neg hle]
        exact (ih.cons f).trans (List.Perm.swap e f rest)

theorem mem_pushEvent {x e : ScheduledEvent} {q : List ScheduledEvent} :
    x ∈ pushEvent e q ↔ x = e ∨ x ∈ q := by
  rw [(pushEvent_perm e q).mem_iff, List.mem_cons]

theorem pushEvent_sorted {e : ScheduledEvent} {q : List ScheduledEvent}
    (h : qSorted q) : qSorted (pushEvent e q) := by
  unfold qSorted at h ⊢
  induction q with
  | nil => simp [pushEvent, qSorted]
  | cons f rest ih =>
      rcases (List.pairwise_cons.mp h) with ⟨hf, hrest⟩
      by_cases hle : ScheduledEvent.le e f
      · rw [show pushEvent e (f :: rest) = e :: f :: rest from by
          simp [pushEvent, hle]]
        refine List.pairwise_cons.mpr ⟨?_, h⟩
        intro y hy
        rcases List.mem_cons.mp hy with rfl | hy'
        · exact hle
        · exact le_trans_ev hle (hf y hy')
      · have hfe : ScheduledEvent.le f e := (le_total_ev e f).resolve_left hle
        rw [show pushEvent e (f :: rest) = f :: pushEvent e rest from by
          simp [pushEvent, hle]]
        refine List.pairwise_cons.mpr ⟨?_, ih hrest⟩
        intro y hy
        rcases mem_pushEvent.mp hy with rfl | hy'
        · exact hfe
        · exact hf y hy'

theorem countCompl_pushEvent (e : ScheduledEvent) (q : List ScheduledEvent)
    (i : Nat) :
    countCompl (pushEvent e q) i = countCompl (e :: q) i := by
  unfold countCompl
  exact List.Perm.countP_eq _ (pushEvent_perm e q)

theorem countArr_pushEvent (e : ScheduledEvent) (q : List ScheduledEvent) :
    countArr (pushEvent e q) = countArr (e :: q) := by
  unfold countArr
  exact List.Perm.countP_eq _ (pushEvent_perm e q)

theorem countCompl_cons (e : ScheduledEvent) (q : List ScheduledEvent)
    (i : Nat) :
    countCompl (e :: q) i =
      (match e.event with
        | .RequestComplete sid _ => if sid = i then 1 else 0
        | .RequestArrival _ => 0) + countCompl q i := by
  unfold countCompl
  rw [List.countP_cons]
  rcases e with ⟨t, ev⟩
  rcases ev with r | ⟨sid, rid⟩
  · simp
  · by_cases h : sid = i <;> simp [h] <;> omega

theorem countArr_cons (e : ScheduledEvent) (q : List ScheduledEvent) :
    countArr (e :: q) =
      (match e.event with
        | .RequestComplete _ _ => 0
        | .RequestArrival _ => 1) + countArr q := by
  unfold countArr
  rw [List.countP_cons]
  rcases e with ⟨t, ev⟩
  rcases ev with r | ⟨sid, rid⟩ <;> simp <;> omega

/-! Small list utilities. -/

theorem getD_lt_len {α} [Inhabited α] (l : List α) (i : Nat) (h : i < l.length) :
    l.getD i default = l.get ⟨i, h⟩ := by
  rw [List.getD_eq_getElem?_getD, List.getElem?_eq_getElem h]
  rfl

theorem getD_set_self {α} [Inhabited α] (l : List α) (i : Nat) (v : α)
    (h : i < l.length) : (l.set i v).getD i default = v := by
  rw [List.getD_eq_getElem?_getD, List.getElem?_set_self h]
  rfl

theorem getD_set_ne {α} [Inhabited α] (l : List α) (i j : Nat) (v : α)
    (h : i ≠ j) : (l.set i v).getD j default = l.getD j default := by
  rw [List.getD_eq_getElem?_getD, List.getElem?_set_ne h,
    ← List.getD_eq_getElem?_getD]

theorem natGetD_set_self (l : List Nat) (i : Nat) (v : Nat)
    (h : i < l.length) : (l.set i v).getD i 0 = v := by
  rw [List.getD_eq_getElem?_getD, List.getElem?_set_self h]
  rfl

theorem sum_set_getD_add (l : List Nat) (i v : Nat) (h : i < l.length) :
    (l.set i (l.getD i 0 + v)).sum = l.sum + v := by
  induction l generalizing i with
  | nil => simp at h
  | cons a l ih =>
      cases i with
      | zero => simp [List.set]; omega
      | succ i =>
          have := ih i (by simpa using h)
          simp only [List.set, List.sum_cons, List.getD_cons_succ]
          omega

theorem map_set_same_weight (l : List ServerState) (i : Nat) (v : ServerState)
    (h : v.weight = (l.getD i default).weight) :
    (l.set i v).map (fun s => s.weight) = l.map (fun s => s.weight) := by
  induction l generalizing i with
  | nil => simp
  | cons a l ih =>
      cases i with
      | zero => simp_all [List.set]
      | succ i => simp_all [List.set]

theorem getD_lt_of_all {c : List Nat} {L : Nat} (hall : ∀ k ∈ c, k < L)
    (hL : 0 < L) (p : Nat) : c.getD p 0 < L := by
  by_cases hp : p < c.length
  · have h1 : c.getD p 0 = c.get ⟨p, hp⟩ := by
      rw [List.getD_eq_getElem?_getD, List.getElem?_eq_getElem hp]
      rfl
    rw [h1]
    exact hall _ (c.get_mem p hp)
  · rw [List.getD_eq_getElem?_getD, List.getElem?_eq_none (by omega)]
    exact hL

/-! Lemmas on the minimum scan shared by the two tie-breaking strategies. -/

theorem scanMin_nil (f : ServerState → Nat) (m : Nat) : scanMin f m [] = m := rfl

theorem scanMin_cons (f : ServerState → Nat) (m : Nat) (s : ServerState)
    (l : List ServerState) :
    scanMin f m (s :: l) = scanMin f (min m (f s)) l := rfl

theorem scanMin_le_init (f : ServerState → Nat) (m : Nat)
    (l : List ServerState) : scanMin f m l ≤ m := by
  induction l generalizing m with
  | nil => simp [scanMin_nil]
  | cons s l ih =>
      rw [scanMin_cons]
      exact le_trans (ih (min m (f s))) (by omega)

theorem scanMin_le_mem (f : ServerState → Nat) (m : Nat)
    (l : List ServerState) : ∀ s ∈ l, scanMin f m l ≤ f s := by
  induction l generalizing m with
  | nil => simp
  | cons a l ih =>
      intro s hs
      rw [scanMin_cons]
      rcases List.mem_cons.mp hs with rfl | hs'
      · exact le_trans (scanMin_le_init f _ l) (by omega)
      · exact ih (min m (f a)) s hs'

theorem scanMin_eq_init_iff (f : ServerState → Nat) (m : Nat)
    (l : List ServerState) : scanMin f m l = m ↔ ∀ s ∈ l, m ≤ f s := by
  induction l generalizing m with
  | nil => simp [scanMin_nil]
  | cons a l ih =>
      rw [scanMin_cons]
      constructor
      · intro h
        have hle : scanMin f (min m (f a)) l ≤ min m (f a) := scanMin_le_init f _ l
        have hmin : min m (f a) = m := by omega
        intro s hs
        rcases List.mem_cons.mp hs with rfl | hs'
        · omega
        · exact le_trans (le_of_eq hmin.symm) ((ih (min m (f a))).mp (by omega) s hs')
      · intro h
        have hma : m ≤ f a := h a (List.mem_cons_self a l)
        have hmin : min m (f a) = m := by omega
        rw [hmin]
        exact (ih m).mpr fun s hs => h s (List.mem_cons_of_mem a hs)

theorem scanMin_mem_or (f : ServerState → Nat) (m : Nat)
    (l : List ServerState) :
    scanMin f m l = m ∨ ∃ s ∈ l, scanMin f m l = f s := by
  induction l generalizing m with
  | nil => left; rfl
  | cons a l ih =>
      rw [scanMin_cons]
      rcases ih (min m (f a)) with h | ⟨s, hs, h⟩
      · rcases Nat.le_total m (f a) with hma | hma
        · left; omega
        · right; exact ⟨a, List.mem_cons_self a l, by omega⟩
      · right; exact ⟨s, List.mem_cons_of_mem a hs, h⟩

/-! Lemmas on the index list of minimum attainers. -/

theorem attainIdx_bounds (f : ServerState → Nat) :
    ∀ (l : List ServerState) (idx m k : Nat), k ∈ attainIdx f idx m l →
      idx ≤ k ∧ k < idx + l.length := by
  intro l
  induction l with
  | nil => intro idx m k h; simp [attainIdx] at h
  | cons a l ih =>
      intro idx m k h
      unfold attainIdx at h
      by_cases ha : f a = m
      · rw [if_pos ha] at h
        rcases List.mem_cons.mp h with rfl | h'
        · simp
        · have := ih (idx + 1) m k h'
          constructor <;> [omega; (simp only [List.length_cons]; omega)]
      · rw [if_neg ha] at h
        have := ih (idx + 1) m k h
        constructor <;> [omega; (simp only [List.length_cons]; omega)]

theorem attainIdx_mem_val (f : ServerState → Nat) :
    ∀ (l : List ServerState) (idx m k : Nat), k ∈ attainIdx f idx m l →
      f (l.getD (k - idx) default) = m := by
  intro l
  induction l with
  | nil => intro idx m k h; simp [attainIdx] at h
  | cons a l ih =>
      intro idx m k h
      unfold attainIdx at h
      by_cases ha : f a = m
      · rw [if_pos ha] at h
        rcases List.mem_cons.mp h with rfl | h'
        · simpa using ha
        · have hb := attainIdx_bounds f l (idx + 1) m k h'
          have := ih (idx + 1) m k h'
          rw [show k - idx = (k - (idx + 1)) + 1 by omega]
          simpa using this
      · rw [if_neg ha] at h
        have hb := attainIdx_bounds f l (idx + 1) m k h
        have := ih (idx + 1) m k h
        rw [show k - idx = (k - (idx + 1)) + 1 by omega]
        simpa using this

theorem attainIdx_ne_nil (f : ServerState → Nat) :
    ∀ (l : List ServerState) (idx m : Nat),
      (∃ i, i < l.length ∧ f (l.getD i default) = m) →
      attainIdx f idx m l ≠ [] := by
  intro l
  induction l with
  | nil => intro idx m ⟨i, hi, _⟩; simp at hi
  | cons a l ih =>
      intro idx m ⟨i, hi, hv⟩
      unfold attainIdx
      by_cases ha : f a = m
      · simp [ha]
      · rw [if_neg ha]
        apply ih (idx + 1) m
        cases i with
        | zero => simp at hv; exact absurd hv ha
        | succ i => exact ⟨i, by simpa using hi, by simpa using hv⟩

theorem attainIdx_head_first (f : ServerState → Nat) :
    ∀ (l : List ServerState) (idx m k : Nat) (ks : List Nat),
      attainIdx f idx m l = k :: ks →
      idx ≤ k ∧ k - idx < l.length ∧ f (l.getD (k - idx) default) = m ∧
        ∀ i, i < k - idx → f (l.getD i default) ≠ m := by
  intro l
  induction l with
  | nil => intro idx m k ks h; simp [attainIdx] at h
  | cons a l ih =>
      intro idx m k ks h
      unfold attainIdx at h
      by_cases ha : f a = m
      · rw [if_pos ha] at h
        injection h with h1 h2
        subst h1
        refine ⟨le_refl _, by simp, by simpa using ha, ?_⟩
        intro i hi
        omega
      · rw [if_neg ha] at h
        have := ih (idx + 1) m k ks h
        obtain ⟨h1, h2, h3, h4⟩ := this
        refine ⟨by omega, by simp only [List.length_cons]; omega, ?_, ?_⟩
        · rw [show k - idx = (k - (idx + 1)) + 1 by omega]
          simpa using h3
        · intro i hi
          cases i with
          | zero => simpa using ha
          | succ i =>
              have := h4 i (by omega)
              simpa using this

theorem attainIdx_singleton (f : ServerState → Nat) :
    ∀ (l : List ServerState) (idx m j : Nat), j < l.length →
      (∀ i, i < l.length → (f (l.getD i default) = m ↔ i = j)) →
      attainIdx f idx m l = [idx + j] := by
  intro l
  induction l with
  | nil => intro idx m j hj; simp at hj
  | cons a l ih =>
      intro idx m j hj huniq
      unfold attainIdx
      cases j with
      | zero =>
          have ha : f a = m := by
            have := (huniq 0 (by simp)).mpr rfl
            simpa using this
          rw [if_pos ha]
          have : attainIdx f (idx + 1) m l = [] := by
            by_contra hne
            rcases hx : attainIdx f (idx + 1) m l with _ | ⟨k, ks⟩
            · exact hne hx
            · obtain ⟨hk1, hk2, hk3, _⟩ := attainIdx_head_first f l (idx + 1) m k ks hx
              have := (huniq (k - (idx + 1) + 1) (by simp only [List.length_cons]; omega)).mp
                (by simpa using hk3)
              omega
          simp [this]
      | succ j =>
          have ha : ¬ f a = m := by
            intro hcon
            have := (huniq 0 (by simp)).mp (by simpa using hcon)
            omega
          rw [if_neg ha]
          rw [show idx + (j + 1) = (idx + 1) + j by omega]
          apply ih (idx + 1) m j (by simpa using hj)
          intro i hi
          have := huniq (i + 1) (by simp only [List.length_cons]; omega)
          simpa using this

theorem attainIdx_cons (f : ServerState → Nat) (a : ServerState)
    (l : List ServerState) (idx m : Nat) :
    attainIdx f idx m (a :: l) =
      if f a = m then idx :: attainIdx f (idx + 1) m l
      else attainIdx f (idx + 1) m l := rfl

theorem scanCandidates_cons (f : ServerState → Nat) (idx m : Nat)
    (cand : List Nat) (a : ServerState) (l : List ServerState) :
    scanCandidates f idx m cand (a :: l) =
      if f a < m then scanCandidates f (idx + 1) (f a) [idx] l
      else if f a = m then scanCandidates f (idx + 1) m (cand ++ [idx]) l
      else scanCandidates f (idx + 1) m cand l := rfl

/-- Characterization of the scanCandidates loop: the returned minimum is the
fold of min over the servers, and the returned candidate list is the initial
accumulator (kept only when no strictly smaller value was found) followed by
the indices attaining the final minimum. -/
theorem scanCandidates_spec (f : ServerState → Nat) :
    ∀ (l : List ServerState) (idx m : Nat) (cand : List Nat),
      scanCandidates f idx m cand l =
        (scanMin f m l,
          (if l.all fun s => m ≤ f s then cand else []) ++
            attainIdx f idx (scanMin f m l) l) := by
  intro l
  induction l with
  | nil => intro idx m cand; simp [scanCandidates, scanMin_nil, attainIdx]
  | cons a l ih =>
      intro idx m cand
      rcases Nat.lt_trichotomy (f a) m with hlt | heq | hgt
      · rw [scanCandidates_cons, if_pos hlt]
        rw [ih (idx + 1) (f a) [idx]]
        have hm : scanMin f m (a :: l) = scanMin f (f a) l := by
          rw [scanMin_cons, show min m (f a) = f a by omega]
        rw [hm]
        have hnall : ((a :: l).all fun s => m ≤ f s) = false := by
          simp [List.all_cons]
          intro hcon
          omega
        rw [hnall]
        have hA : attainIdx f idx (scanMin f (f a) l) (a :: l) =
            (if l.all fun s => f a ≤ f s then [idx] else []) ++
              attainIdx f (idx + 1) (scanMin f (f a) l) l := by
          rw [attainIdx_cons]
          by_cases hall : l.all fun s => f a ≤ f s
          · have : scanMin f (f a) l = f a := by
              rw [scanMin_eq_init_iff]
              intro s hs
              exact of_decide_eq_true (List.all_eq_true.mp hall s hs)
            rw [if_pos (by omega), hall]
            simp
          · have hne : ¬ scanMin f (f a) l = f a := by
              rw [scanMin_eq_init_iff]
              intro hcon
              apply hall
              rw [List.all_eq_true]
              exact fun s hs => decide_eq_true (hcon s hs)
            rw [if_neg (by omega), if_neg hall]
            simp
        rw [hA]
        simp
      · subst heq
        rw [scanCandidates_cons, if_neg (lt_irrefl _), if_pos rfl]
        rw [ih (idx + 1) (f a) (cand ++ [idx])]
        have hm : scanMin f (f a) (a :: l) = scanMin f (f a) l := by
          rw [scanMin_cons, show min (f a) (f a) = f a by omega]
        rw [hm]
        have hallcons : ((a :: l).all fun s => f a ≤ f s) =
            (l.all fun s => f a ≤ f s) := by
          simp [List.all_cons]
        rw [hallcons]
        have hA : attainIdx f idx (scanMin f (f a) l) (a :: l) =
            (if l.all fun s => f a ≤ f s then idx :: attainIdx f (idx + 1)
              (scanMin f (f a) l) l
             else attainIdx f (idx + 1) (scanMin f (f a) l) l) := by
          rw [attainIdx_cons]
          by_cases hall : l.all fun s => f a ≤ f s
          · have : scanMin f (f a) l = f a := by
              rw [scanMin_eq_init_iff]
              intro s hs
              exact of_decide_eq_true (List.all_eq_true.mp hall s hs)
            rw [if_pos (by omega), if_pos hall]
          · have hne : ¬ scanMin f (f a) l = f a := by
              rw [scanMin_eq_init_iff]
              intro hcon
              apply hall
              rw [List.all_eq_true]
              exact fun s hs => decide_eq_true (hcon s hs)
            rw [if_neg (by omega), if_neg hall]
        rw [hA]
        by_cases hall : l.all fun s => f a ≤ f s <;> simp [hall]
      · rw [scanCandidates_cons, if_neg (by omega), if_neg (by omega)]
        rw [ih (idx + 1) m cand]
        have hm : scanMin f m (a :: l) = scanMin f m l := by
          rw [scanMin_cons, show min m (f a) = m by omega]
        rw [hm]
        have hallcons : ((a :: l).all fun s => m ≤ f s) =
            (l.all fun s => m ≤ f s) := by
          simp [List.all_cons]
          intro
          omega
        rw [hallcons]
        have hA : attainIdx f idx (scanMin f m l) (a :: l) =
            attainIdx f (idx + 1) (scanMin f m l) l := by
          rw [attainIdx_cons]
          have : ¬ f a = scanMin f m l := by
            have := scanMin_le_init f m l
            omega
          rw [if_neg this]
        rw [hA]

/-- The least-connections candidate list: indices attaining the minimum
active-connection count, in index order. -/
theorem lc_candidates (servers : List ServerState) :
    (scanCandidates (fun s => s.active_connections) 0 u32MAX [] servers).2 =
      attainIdx (fun s => s.active_connections) 0
        (scanMin (fun s => s.active_connections) u32MAX servers) servers := by
  rw [scanCandidates_spec]
  simp

/-! Prefix sums of the weighted-round-robin cache. -/

theorem runningTotals_length (ws : List Nat) :
    ∀ acc, (runningTotals acc ws).length = ws.length := by
  induction ws with
  | nil => intro acc; rfl
  | cons w ws ih => intro acc; simp [runningTotals, ih]

theorem runningTotals_getD (ws : List Nat) :
    ∀ (acc i : Nat), i < ws.length →
      (runningTotals acc ws).getD i 0 = acc + (ws.take (i + 1)).sum := by
  induction ws with
  | nil => intro acc i h; simp at h
  | cons w ws ih =>
      intro acc i h
      cases i with
      | zero => simp [runningTotals]
      | succ i =>
          have := ih (acc + w) i (by simpa using h)
          simp only [runningTotals, List.getD_cons_succ, List.take_succ_cons,
            List.sum_cons]
          omega

theorem take_sum_le (l : List Nat) :
    ∀ (m n : Nat), m ≤ n → (l.take m).sum ≤ (l.take n).sum := by
  induction l with
  | nil => intro m n _; simp
  | cons a l ih =>
      intro m n hmn
      cases m with
      | zero => simp
      | succ m =>
          cases n with
          | zero => omega
          | succ n =>
              simp only [List.take_succ_cons, List.sum_cons]
              have := ih m n (by omega)
              omega

theorem runningTotals_mono (ws : List Nat) (acc i j : Nat) (hij : i ≤ j)
    (hj : j < ws.length) :
    (runningTotals acc ws).getD i 0 ≤ (runningTotals acc ws).getD j 0 := by
  rw [runningTotals_getD ws acc i (by omega), runningTotals_getD ws acc j hj]
  have := take_sum_le ws (i + 1) (j + 1) (by omega)
  omega

theorem runningTotals_last (ws : List Nat) (acc : Nat) (h : ws ≠ []) :
    (runningTotals acc ws).getD (ws.length - 1) 0 = acc + ws.sum := by
  rw [runningTotals_getD ws acc (ws.length - 1)
    (by cases ws with | nil => exact absurd rfl h | cons a l => simp)]
  congr 1
  rw [show ws.length - 1 + 1 = ws.length by
    cases ws with | nil => exact absurd rfl h | cons a l => simp]
  rw [List.take_length]

theorem length_le_sum_of_pos (ws : List Nat) (h : ∀ w ∈ ws, 1 ≤ w) :
    ws.length ≤ ws.sum := by
  induction ws with
  | nil => simp
  | cons w ws ih =>
      simp only [List.length_cons, List.sum_cons]
      have h1 := h w (List.mem_cons_self w ws)
      have h2 := ih fun x hx => h x (List.mem_cons_of_mem w hx)
      omega

/-- Specification of the embedded std binary_search_by loop: on a prefix of
monotone values it returns the partition point of the predicate
(value > target) within [left, right], given that everything before left
fails the predicate and everything from right on satisfies it. -/
theorem bsLoop_spec (ps : List Nat) (t : Nat)
    (hmono : ∀ i j, i ≤ j → j < ps.length → ps.getD i 0 ≤ ps.getD j 0) :
    ∀ (fuel left right : Nat), right - left ≤ fuel → left ≤ right →
      right ≤ ps.length →
      (∀ j, j < left → ps.getD j 0 ≤ t) →
      (∀ j, right ≤ j → j < ps.length → t < ps.getD j 0) →
      left ≤ bsLoop ps t left right ∧ bsLoop ps t left right ≤ right ∧
        (∀ j, j < bsLoop ps t left right → ps.getD j 0 ≤ t) ∧
        (∀ j, bsLoop ps t left right ≤ j → j < ps.length →
          t < ps.getD j 0) := by
  intro fuel
  induction fuel with
  | zero =>
      intro left right h1 h2 h3 h4 h5
      have heq : ¬ left < right := by omega
      rw [bsLoop, dif_neg heq]
      exact ⟨le_refl _, h2, h4, fun j hj hlen => h5 j (by omega) hlen⟩
  | succ n ih =>
      intro left right h1 h2 h3 h4 h5
      by_cases h : left < right
      · by_cases hcmp : t < ps.getD (left + (right - left) / 2) 0
        · rw [bsLoop, dif_pos h, if_pos hcmp]
          obtain ⟨g1, g2, g3, g4⟩ := ih left (left + (right - left) / 2)
            (by omega) (by omega) (by omega) h4
            (fun j hj hlen =>
              lt_of_lt_of_le hcmp (hmono (left + (right - left) / 2) j hj hlen))
          exact ⟨g1, by omega, g3, g4⟩
        · rw [bsLoop, dif_pos h, if_neg hcmp]
          obtain ⟨g1, g2, g3, g4⟩ := ih (left + (right - left) / 2 + 1) right
            (by omega) (by omega) h3
            (fun j hj =>
              le_trans (hmono j (left + (right - left) / 2) (by omega)
                (by omega)) (by omega))
            h5
          exact ⟨by omega, g2, g3, g4⟩
      · rw [bsLoop, dif_neg h]
        exact ⟨le_refl _, h2, h4, fun j hj hlen => h5 j (by omega) hlen⟩

/-- One weighted-round-robin pick lands strictly inside the server list when
every weight is positive. -/
theorem wrr_selected_lt (ws : List Nat) (t : Nat) (hpos : ∀ w ∈ ws, 1 ≤ w)
    (hne : 0 < ws.length) (ht : t < ws.sum) :
    bsLoop (runningTotals 0 ws) t 0 (runningTotals 0 ws).length < ws.length := by
  have hlen := runningTotals_length ws 0
  obtain ⟨g1, g2, g3, g4⟩ := bsLoop_spec (runningTotals 0 ws) t
    (fun i j hij hj => runningTotals_mono ws 0 i j hij (by omega))
    (runningTotals 0 ws).length 0 (runningTotals 0 ws).length
    (by omega) (by omega) (le_refl _)
    (fun j hj => absurd hj (by omega))
    (fun j hj hlen2 => absurd (lt_of_le_of_lt hj hlen2) (lt_irrefl _))
  by_contra hcon
  have hsel : bsLoop (runningTotals 0 ws) t 0 (runningTotals 0 ws).length =
      ws.length := by omega
  have hlast := g3 (ws.length - 1) (by omega)
  rw [runningTotals_last ws 0 (by
    cases ws with
    | nil => simp at hne
    | cons a l => simp)] at hlast
  omega

/-- The first-index-whose-prefix-sum-exceeds-the-target characterization of
one weighted-round-robin pick. -/
theorem wrr_choose_spec (ws : List Nat) (t : Nat) (hpos : ∀ w ∈ ws, 1 ≤ w)
    (hne : 0 < ws.length) (ht : t < ws.sum) :
    bsLoop (runningTotals 0 ws) t 0 (runningTotals 0 ws).length < ws.length ∧
      t < (runningTotals 0 ws).getD
        (bsLoop (runningTotals 0 ws) t 0 (runningTotals 0 ws).length) 0 ∧
      ∀ j, j < bsLoop (runningTotals 0 ws) t 0 (runningTotals 0 ws).length →
        (runningTotals 0 ws).getD j 0 ≤ t := by
  have hlen := runningTotals_length ws 0
  have hlt := wrr_selected_lt ws t hpos hne ht
  obtain ⟨g1, g2, g3, g4⟩ := bsLoop_spec (runningTotals 0 ws) t
    (fun i j hij hj => runningTotals_mono ws 0 i j hij (by omega))
    (runningTotals 0 ws).length 0 (runningTotals 0 ws).length
    (by omega) (by omega) (le_refl _)
    (fun j hj => absurd hj (by omega))
    (fun j hj hlen2 => absurd (lt_of_le_of_lt hj hlen2) (lt_irrefl _))
  exact ⟨hlt, g4 _ (le_refl _) (by omega), g3⟩

/-- The pick at target t is index i exactly when t falls in the i-th weight
segment of the prefix sums. -/
theorem wrr_choose_eq_iff (ws : List Nat) (t i : Nat) (hpos : ∀ w ∈ ws, 1 ≤ w)
    (hne : 0 < ws.length) (ht : t < ws.sum) (hi : i < ws.length) :
    bsLoop (runningTotals 0 ws) t 0 (runningTotals 0 ws).length = i ↔
      ((ws.take i).sum ≤ t ∧ t < (ws.take (i + 1)).sum) := by
  obtain ⟨h1, h2, h3⟩ := wrr_choose_spec ws t hpos hne ht
  constructor
  · intro heq
    rw [heq] at h2 h3
    constructor
    · cases i with
      | zero => simp
      | succ i =>
          have := h3 i (by omega)
          rw [runningTotals_getD ws 0 i (by omega)] at this
          omega
    · rw [runningTotals_getD ws 0 i (by omega)] at h2
      omega
  · rintro ⟨hlo, hhi⟩
    set r := bsLoop (runningTotals 0 ws) t 0 (runningTotals 0 ws).length with hr
    rcases Nat.lt_trichotomy r i with hri | hri | hri
    · exfalso
      rw [runningTotals_getD ws 0 r (by omega)] at h2
      have := take_sum_le ws (r + 1) i (by omega)
      omega
    · exact hri
    · exfalso
      have := h3 i hri
      rw [runningTotals_getD ws 0 i (by omega)] at this
      omega

theorem selectStep_rr (n : Nat) (servers : List ServerState) (draw : Nat → Nat) :
    selectStep (.roundRobin n) servers draw =
      (⟨n % servers.length, none⟩,
        .roundRobin ((n + 1) % servers.length), false) := rfl

/-- Weighted-round-robin select when the cache must be rebuilt. -/
theorem selectStep_wrr_rebuild (cursor tw : Nat) (ps : List Nat) (cl : Nat)
    (servers : List ServerState) (draw : Nat → Nat)
    (h : (ps.isEmpty || decide (cl ≠ servers.length)) = true) :
    selectStep (.weightedRoundRobin cursor tw ps cl) servers draw =
      (⟨bsLoop (runningTotals 0 (servers.map fun s => s.weight))
          (cursor % (servers.map fun s => s.weight).sum) 0
          (runningTotals 0 (servers.map fun s => s.weight)).length, none⟩,
        .weightedRoundRobin
          ((cursor + 1) % (servers.map fun s => s.weight).sum)
          ((servers.map fun s => s.weight).sum)
          (runningTotals 0 (servers.map fun s => s.weight))
          servers.length, false) := by
  simp only [selectStep, h, if_true]

/-- Weighted-round-robin select when the cache is reused. -/
theorem selectStep_wrr_cached (cursor tw : Nat) (ps : List Nat) (cl : Nat)
    (servers : List ServerState) (draw : Nat → Nat)
    (h : (ps.isEmpty || decide (cl ≠ servers.length)) = false) :
    selectStep (.weightedRoundRobin cursor tw ps cl) servers draw =
      (⟨bsLoop ps (cursor % tw) 0 ps.length, none⟩,
        .weightedRoundRobin ((cursor + 1) % tw) tw ps cl, false) := by
  simp only [selectStep, h, Bool.false_eq_true, if_false]

/-- Resolved form of one least-connections select: the candidate list is the
list of indices attaining the minimum count. -/
theorem selectStep_lc_eq (servers : List ServerState) (draw : Nat → Nat) :
    selectStep .leastConnections servers draw =
      (let cands := attainIdx (fun s => s.active_connections) 0
        (scanMin (fun s => s.active_connections) u32MAX servers) servers
      if cands.length = 1 then
        (⟨cands.getD 0 0, none⟩, .leastConnections, false)
      else
        (⟨cands.getD (draw cands.length) 0, none⟩, .leastConnections, true)) := by
  simp only [selectStep]
  rw [scanCandidates_spec]
  simp

/-- Resolved form of one least-response-time select. -/
theorem selectStep_lrt_eq (servers : List ServerState) (draw : Nat → Nat) :
    selectStep .leastResponseTime servers draw =
      (let m := scanMin lrtScore u64MAX servers
      let cands := attainIdx lrtScore 0 m servers
      if cands.length = 1 then
        (⟨cands.getD 0 0, some m⟩, .leastResponseTime, false)
      else
        (⟨cands.getD (draw cands.length) 0, some m⟩,
          .leastResponseTime, true)) := by
  simp only [selectStep]
  rw [scanCandidates_spec]
  simp

/-- Every select call returns an index strictly inside the server list, for
any RNG draw, provided the list is nonempty, weights are positive, and the
weighted-round-robin cache (if that is the strategy) is well formed. -/
theorem selectStep_server_lt (strat : StrategyState) (servers : List ServerState)
    (draw : Nat → Nat) (hne : 0 < servers.length)
    (hw : ∀ s ∈ servers, 1 ≤ s.weight)
    (hc : wrrCacheOK strat (servers.map fun s => s.weight)) :
    (selectStep strat servers draw).1.server_id < servers.length := by
  have hwsl : (servers.map fun s => s.weight).length = servers.length :=
    List.length_map _ _
  have hwsp : ∀ w ∈ servers.map fun s => s.weight, 1 ≤ w := by
    intro w hwmem
    obtain ⟨s, hs, rfl⟩ := List.mem_map.mp hwmem
    exact hw s hs
  have hsum : 0 < (servers.map fun s => s.weight).sum := by
    have := length_le_sum_of_pos _ hwsp
    omega
  cases strat with
  | roundRobin n =>
      rw [selectStep_rr]
      exact Nat.mod_lt _ hne
  | weightedRoundRobin cursor total_weight prefixSums cached_len =>
      by_cases hreb : (prefixSums.isEmpty ||
          decide (cached_len ≠ servers.length)) = true
      · rw [selectStep_wrr_rebuild cursor total_weight prefixSums cached_len
          servers draw hreb]
        have := wrr_selected_lt (servers.map fun s => s.weight)
          (cursor % (servers.map fun s => s.weight).sum) hwsp (by omega)
          (Nat.mod_lt _ hsum)
        dsimp only
        omega
      · rcases hc with hnil | ⟨hlen2, hps, htw⟩
        · exact absurd (by simp [hnil]) hreb
        · rw [selectStep_wrr_cached cursor total_weight prefixSums cached_len
            servers draw (by simpa using hreb)]
          subst hps
          subst htw
          have := wrr_selected_lt (servers.map fun s => s.weight)
            (cursor % (servers.map fun s => s.weight).sum) hwsp (by omega)
            (Nat.mod_lt _ hsum)
          dsimp only
          omega
  | leastConnections =>
      rw [selectStep_lc_eq]
      have hbound := attainIdx_bounds (fun s => s.active_connections) servers 0
        (scanMin (fun s => s.active_connections) u32MAX servers)
      have hall : ∀ k ∈ attainIdx (fun s => s.active_connections) 0
          (scanMin (fun s => s.active_connections) u32MAX servers) servers,
          k < servers.length := by
        intro k hk
        have := hbound k hk
        omega
      by_cases hlen : (attainIdx (fun s => s.active_connections) 0
          (scanMin (fun s => s.active_connections) u32MAX servers)
          servers).length = 1
      · simp only [hlen, if_true, ite_true]
        exact getD_lt_of_all hall hne 0
      · simp only [hlen, ite_false, if_false]
        exact getD_lt_of_all hall hne _
  | leastResponseTime =>
      rw [selectStep_lrt_eq]
      have hbound := attainIdx_bounds lrtScore servers 0
        (scanMin lrtScore u64MAX servers)
      have hall : ∀ k ∈ attainIdx lrtScore 0
          (scanMin lrtScore u64MAX servers) servers, k < servers.length := by
        intro k hk
        have := hbound k hk
        omega
      by_cases hlen : (attainIdx lrtScore 0
          (scanMin lrtScore u64MAX servers) servers).length = 1
      · simp only [hlen, if_true, ite_true]
        exact getD_lt_of_all hall hne 0
      · simp only [hlen, ite_false, if_false]
        exact getD_lt_of_all hall hne _

/-- One select call keeps the weighted-round-robin cache well formed. -/
theorem selectStep_cacheOK (strat : StrategyState) (servers : List ServerState)
    (draw : Nat → Nat)
    (hc : wrrCacheOK strat (servers.map fun s => s.weight)) :
    wrrCacheOK (selectStep strat servers draw).2.1
      (servers.map fun s => s.weight) := by
  cases strat with
  | roundRobin n => trivial
  | weightedRoundRobin cursor total_weight prefixSums cached_len =>
      by_cases hreb : (prefixSums.isEmpty ||
          decide (cached_len ≠ servers.length)) = true
      · rw [selectStep_wrr_rebuild cursor total_weight prefixSums cached_len
          servers draw hreb]
        right
        exact ⟨(List.length_map _ _).symm, rfl, rfl⟩
      · rcases hc with hnil | good
        · exact absurd (by simp [hnil]) hreb
        · rw [selectStep_wrr_cached cursor total_weight prefixSums cached_len
            servers draw (by simpa using hreb)]
          right
          exact good
  | leastConnections =>
      rw [selectStep_lc_eq]
      by_cases hlen : (attainIdx (fun s => s.active_connections) 0
          (scanMin (fun s => s.active_connections) u32MAX servers)
          servers).length = 1 <;>
        simp [hlen, wrrCacheOK]
  | leastResponseTime =>
      rw [selectStep_lrt_eq]
      by_cases hlen : (attainIdx lrtScore 0
          (scanMin lrtScore u64MAX servers) servers).length = 1 <;>
        simp [hlen, wrrCacheOK]

/-! Unfolding equations of the engine loop and of the two event steps. -/

theorem runLoop_nil (tb : TieBreakConfig) (seed : Nat)
    (oracle : Nat → Nat → Nat → Nat) (store : Bool) (st : LoopSt) :
    runLoop tb seed oracle store [] st = st := by
  rw [runLoop]

theorem runLoop_complete (tb : TieBreakConfig) (seed : Nat)
    (oracle : Nat → Nat → Nat → Nat) (store : Bool) (t sid rid : Nat)
    (q : List ScheduledEvent) (st : LoopSt) :
    runLoop tb seed oracle store (⟨t, .RequestComplete sid rid⟩ :: q) st =
      runLoop tb seed oracle store q
        (completionStep sid
          { st with time_ms := t, popped_times := st.popped_times ++ [t] }) := by
  rw [runLoop]

theorem runLoop_arrival (tb : TieBreakConfig) (seed : Nat)
    (oracle : Nat → Nat → Nat → Nat) (store : Bool) (t : Nat)
    (request : Request) (q : List ScheduledEvent) (st : LoopSt) :
    runLoop tb seed oracle store (⟨t, .RequestArrival request⟩ :: q) st =
      runLoop tb seed oracle store
        (pushEvent (arrivalStep store (eventDraw tb seed oracle st.rngCalls)
          request
          { st with time_ms := t, popped_times := st.popped_times ++ [t] }).2 q)
        (arrivalStep store (eventDraw tb seed oracle st.rngCalls) request
          { st with time_ms := t, popped_times := st.popped_times ++ [t] }).1 := by
  rw [runLoop]

/-- The server record written back by one arrival: same identity and weight,
counters bumped, next_available_ms moved to the computed completion time. -/
theorem arrivalStep_servers (store : Bool) (draw : Nat → Nat)
    (request : Request) (st : LoopSt) :
    (arrivalStep store draw request st).1.servers =
      st.servers.set (selectStep st.strat st.servers draw).1.server_id
        { st.servers.getD (selectStep st.strat st.servers draw).1.server_id
            default with
          active_connections := (st.servers.getD
            (selectStep st.strat st.servers draw).1.server_id
            default).active_connections + 1
          pick_count := (st.servers.getD
            (selectStep st.strat st.servers draw).1.server_id
            default).pick_count + 1
          in_flight := (st.servers.getD
            (selectStep st.strat st.servers draw).1.server_id
            default).in_flight + 1
          next_available_ms :=
            max st.time_ms (st.servers.getD
              (selectStep st.strat st.servers draw).1.server_id
              default).next_available_ms +
            (st.servers.getD
              (selectStep st.strat st.servers draw).1.server_id
              default).base_latency_ms } := rfl

theorem arrivalStep_counts (store : Bool) (draw : Nat → Nat)
    (request : Request) (st : LoopSt) :
    (arrivalStep store draw request st).1.counts =
      st.counts.set (selectStep st.strat st.servers draw).1.server_id
        (st.counts.getD (selectStep st.strat st.servers draw).1.server_id 0
          + 1) := rfl

theorem arrivalStep_time (store : Bool) (draw : Nat → Nat)
    (request : Request) (st : LoopSt) :
    (arrivalStep store draw request st).1.time_ms = st.time_ms := rfl

theorem arrivalStep_popped (store : Bool) (draw : Nat → Nat)
    (request : Request) (st : LoopSt) :
    (arrivalStep store draw request st).1.popped_times = st.popped_times := rfl

theorem arrivalStep_underflow (store : Bool) (draw : Nat → Nat)
    (request : Request) (st : LoopSt) :
    (arrivalStep store draw request st).1.underflow = st.underflow := rfl

theorem arrivalStep_strat (store : Bool) (draw : Nat → Nat)
    (request : Request) (st : LoopSt) :
    (arrivalStep store draw request st).1.strat =
      (selectStep st.strat st.servers draw).2.1 := rfl

theorem arrivalStep_event (store : Bool) (draw : Nat → Nat)
    (request : Request) (st : LoopSt) :
    (arrivalStep store draw request st).2 =
      ⟨max st.time_ms (st.servers.getD
          (selectStep st.strat st.servers draw).1.server_id
          default).next_available_ms +
        (st.servers.getD (selectStep st.strat st.servers draw).1.server_id
          default).base_latency_ms,
        .RequestComplete (selectStep st.strat st.servers draw).1.server_id
          request.id⟩ := rfl

theorem completionStep_servers (sid : Nat) (st : LoopSt) :
    (completionStep sid st).servers =
      st.servers.set sid
        { st.servers.getD sid default with
          active_connections :=
            (st.servers.getD sid default).active_connections - 1
          in_flight := (st.servers.getD sid default).in_flight - 1 } := rfl

theorem completionStep_underflow (sid : Nat) (st : LoopSt) :
    (completionStep sid st).underflow =
      (st.underflow ||
        decide ((st.servers.getD sid default).active_connections = 0)) := rfl

/-- Processing the popped minimum RequestComplete event preserves the master
invariant (and in particular cannot underflow the counter it decrements). -/
theorem inv_completionStep {L0 : Nat} {W0 : List Nat} {N : Nat} {t sid rid : Nat}
    {q : List ScheduledEvent} {st : LoopSt}
    (hinv : LoopInv L0 W0 N (⟨t, .RequestComplete sid rid⟩ :: q) st) :
    LoopInv L0 W0 N q
      (completionStep sid
        { st with time_ms := t, popped_times := st.popped_times ++ [t] }) := by
  have hsid : sid < L0 :=
    hinv.compl_ok _ (List.mem_cons_self _ _) sid rid rfl
  have hslen : st.servers.length = L0 := hinv.servers_len
  have hact : (st.servers.getD sid default).active_connections =
      1 + countCompl q sid := by
    have h := hinv.active_eq sid hsid
    rw [countCompl_cons] at h
    simpa using h
  have htle : st.time_ms ≤ t := by
    have := hinv.time_le _ (List.mem_cons_self _ _)
    simpa using this
  refine ⟨?_, ?_, hinv.weights_pos, hinv.len_pos, ?_, ?_, ?_, ?_, ?_, ?_, ?_,
    ?_, ?_, ?_⟩
  · rw [completionStep_servers, List.length_set]
    exact hinv.servers_len
  · rw [completionStep_servers]
    refine (map_set_same_weight _ _ _ ?_).trans hinv.weights_eq
    rfl
  · exact hinv.counts_len
  · exact hinv.cache_ok
  · intro i hi
    rw [completionStep_servers]
    by_cases hisid : sid = i
    · subst hisid
      rw [getD_set_self _ _ _ (by
        show sid < st.servers.length
        omega)]
      dsimp only
      omega
    · rw [getD_set_ne _ _ _ _ hisid]
      have h := hinv.active_eq i hi
      rw [countCompl_cons] at h
      simp only [hisid, if_false, ite_false] at h
      simpa using h
  · intro se hse sid' rid' hev
    exact hinv.compl_ok se (List.mem_cons_of_mem _ hse) sid' rid' hev
  · exact (List.pairwise_cons.mp hinv.sorted).2
  · intro se hse
    have h1 := (List.pairwise_cons.mp hinv.sorted).1 se hse
    exact le_time_mono h1
  · show ∀ x ∈ st.popped_times ++ [t], x ≤ t
    intro x hx
    rcases List.mem_append.mp hx with hx1 | hx2
    · exact le_trans (hinv.popped_le x hx1) htle
    · simp at hx2
      omega
  · show List.Chain' (· ≤ ·) (st.popped_times ++ [t])
    rw [List.chain'_append]
    refine ⟨hinv.popped_chain, List.chain'_singleton t, ?_⟩
    intro x hx y hy
    simp only [List.head?_cons, Option.mem_def, Option.some.injEq] at hy
    obtain ⟨hne, hxl⟩ := List.mem_getLast?_eq_getLast hx
    subst hxl
    rw [← hy]
    exact le_trans (hinv.popped_le _ (List.getLast_mem hne)) htle
  · show st.counts.sum + countArr q = N
    have h := hinv.count_sum
    rw [countArr_cons] at h
    simpa using h
  · rw [completionStep_underflow]
    show (st.underflow ||
      decide ((st.servers.getD sid default).active_connections = 0)) = false
    have h0 : ¬ (st.servers.getD sid default).active_connections = 0 := by
      omega
    rw [hinv.no_underflow]
    simp only [Bool.false_or, decide_eq_false_iff_not]
    exact h0

/-- Processing the popped minimum RequestArrival event preserves the master
invariant, for any RNG draw function. -/
theorem inv_arrivalStep {L0 : Nat} {W0 : List Nat} {N : Nat} {t : Nat}
    {request : Request} {q : List ScheduledEvent} {st : LoopSt}
    (store : Bool) (draw : Nat → Nat)
    (hinv : LoopInv L0 W0 N (⟨t, .RequestArrival request⟩ :: q) st) :
    LoopInv L0 W0 N
      (pushEvent (arrivalStep store draw request
        { st with time_ms := t, popped_times := st.popped_times ++ [t] }).2 q)
      (arrivalStep store draw request
        { st with time_ms := t, popped_times := st.popped_times ++ [t] }).1 := by
  have hslen : st.servers.length = L0 := hinv.servers_len
  have hne : 0 < st.servers.length := by
    have := hinv.len_pos
    omega
  have hwmem : ∀ s ∈ st.servers, 1 ≤ s.weight := by
    intro s hs
    apply hinv.weights_pos
    rw [← hinv.weights_eq]
    exact List.mem_map.mpr ⟨s, hs, rfl⟩
  have hcache : wrrCacheOK st.strat (st.servers.map fun s => s.weight) := by
    rw [hinv.weights_eq]
    exact hinv.cache_ok
  have hidx : (selectStep st.strat st.servers draw).1.server_id < L0 := by
    have := selectStep_server_lt st.strat st.servers draw hne hwmem hcache
    omega
  have htle : st.time_ms ≤ t := by
    have := hinv.time_le _ (List.mem_cons_self _ _)
    simpa using this
  refine ⟨?_, ?_, hinv.weights_pos, hinv.len_pos, ?_, ?_, ?_, ?_, ?_, ?_, ?_,
    ?_, ?_, ?_⟩
  · rw [arrivalStep_servers, List.length_set]
    exact hinv.servers_len
  · rw [arrivalStep_servers]
    refine (map_set_same_weight _ _ _ ?_).trans hinv.weights_eq
    rfl
  · rw [arrivalStep_counts, List.length_set]
    exact hinv.counts_len
  · rw [arrivalStep_strat]
    have := selectStep_cacheOK st.strat st.servers draw hcache
    rw [hinv.weights_eq] at this
    exact this
  · intro i hi
    rw [arrivalStep_servers, arrivalStep_event, countCompl_pushEvent,
      countCompl_cons]
    have hq := hinv.active_eq i hi
    rw [countCompl_cons] at hq
    simp only at hq
    by_cases hisel : (selectStep st.strat st.servers draw).1.server_id = i
    · rw [← hisel]
      rw [getD_set_self _ _ _ (by
        show (selectStep st.strat st.servers draw).1.server_id <
          st.servers.length
        omega)]
      dsimp only
      simp only [eq_self_iff_true, if_true, ite_true]
      rw [← hisel] at hq
      omega
    · rw [getD_set_ne _ _ _ _ hisel]
      simp only [hisel, if_false, ite_false]
      omega
  · intro se hse sid' rid' hev
    rw [arrivalStep_event] at hse
    rcases mem_pushEvent.mp hse with rfl | hse'
    · simp only [ScheduledEvent.mk.injEq] at hev ⊢
      injection hev with h1 h2
      omega
    · exact hinv.compl_ok se (List.mem_cons_of_mem _ hse') sid' rid' hev
  · rw [arrivalStep_event]
    exact pushEvent_sorted (List.pairwise_cons.mp hinv.sorted).2
  · intro se hse
    rw [arrivalStep_event] at hse
    show t ≤ se.time_ms
    rcases mem_pushEvent.mp hse with rfl | hse'
    · dsimp only
      have : st.time_ms ≤ max st.time_ms (st.servers.getD
          (selectStep st.strat st.servers draw).1.server_id
          default).next_available_ms := le_max_left _ _
      show t ≤ max t _ + _
      omega
    · exact le_time_mono ((List.pairwise_cons.mp hinv.sorted).1 se hse')
  · rw [arrivalStep_popped]
    show ∀ x ∈ st.popped_times ++ [t], x ≤ t
    intro x hx
    rcases List.mem_append.mp hx with hx1 | hx2
    · exact le_trans (hinv.popped_le x hx1) htle
    · simp at hx2
      omega
  · rw [arrivalStep_popped]
    show List.Chain' (· ≤ ·) (st.popped_times ++ [t])
    rw [List.chain'_append]
    refine ⟨hinv.popped_chain, List.chain'_singleton t, ?_⟩
    intro x hx y hy
    simp only [List.head?_cons, Option.mem_def, Option.some.injEq] at hy
    obtain ⟨hne2, hxl⟩ := List.mem_getLast?_eq_getLast hx
    subst hxl
    rw [← hy]
    exact le_trans (hinv.popped_le _ (List.getLast_mem hne2)) htle
  · rw [arrivalStep_counts, arrivalStep_event, countArr_pushEvent, countArr_cons]
    have hsum := sum_set_getD_add st.counts
      (selectStep st.strat st.servers draw).1.server_id 1 (by
        rw [hinv.counts_len]
        exact hidx)
    rw [hsum]
    have h := hinv.count_sum
    rw [countArr_cons] at h
    simp only at h ⊢
    omega
  · rw [arrivalStep_underflow]
    exact hinv.no_underflow

theorem queueLoad_pushEvent (e : ScheduledEvent) (q : List ScheduledEvent) :
    queueLoad (pushEvent e q) = e.event.load + queueLoad q := by
  induction q with
  | nil => simp [pushEvent, queueLoad]
  | cons f rest ih =>
      by_cases hle : ScheduledEvent.le e f <;>
        simp [pushEvent, hle, queueLoad] <;> omega

/-- Draining the queue from any state satisfying the master invariant leaves
a final state with no underflow, with the full request count distributed over
the counts vector, and with a monotone popped-timestamp trace. -/
theorem runLoop_post (tb : TieBreakConfig) (seed : Nat)
    (oracle : Nat → Nat → Nat → Nat) (store : Bool) {L0 : Nat} {W0 : List Nat}
    {N : Nat} :
    ∀ (n : Nat) (q : List ScheduledEvent) (st : LoopSt), queueLoad q ≤ n →
      LoopInv L0 W0 N q st →
      (runLoop tb seed oracle store q st).underflow = false ∧
        (runLoop tb seed oracle store q st).counts.sum = N ∧
        List.Chain' (· ≤ ·) (runLoop tb seed oracle store q st).popped_times ∧
        (runLoop tb seed oracle store q st).counts.length = L0 ∧
        (runLoop tb seed oracle store q st).servers.length = L0 := by
  intro n
  induction n with
  | zero =>
      intro q st hle hinv
      cases q with
      | nil =>
          rw [runLoop_nil]
          refine ⟨hinv.no_underflow, ?_, hinv.popped_chain, hinv.counts_len,
            hinv.servers_len⟩
          have hs := hinv.count_sum
          simpa [countArr] using hs
      | cons se q' =>
          exfalso
          rcases se with ⟨t, ev⟩
          cases ev <;> simp [queueLoad, Event.load] at hle
  | succ n ih =>
      intro q st hle hinv
      cases q with
      | nil =>
          rw [runLoop_nil]
          refine ⟨hinv.no_underflow, ?_, hinv.popped_chain, hinv.counts_len,
            hinv.servers_len⟩
          have hs := hinv.count_sum
          simpa [countArr] using hs
      | cons se q' =>
          rcases se with ⟨t, ev⟩
          cases ev with
          | RequestArrival request =>
              rw [runLoop_arrival]
              apply ih
              · rw [queueLoad_pushEvent, arrivalStep_event]
                simp only [queueLoad, Event.load] at hle ⊢
                omega
              · exact inv_arrivalStep store
                  (eventDraw tb seed oracle st.rngCalls) hinv
          | RequestComplete sid rid =>
              rw [runLoop_complete]
              apply ih
              · simp only [queueLoad, Event.load] at hle ⊢
                omega
              · exact inv_completionStep hinv

/-! Initial state facts. -/

theorem seedQueue_fold_perm (requests : List Request) :
    ∀ (acc : List ScheduledEvent × Option Nat),
      (requests.foldl
        (fun acc r =>
          (pushEvent ⟨r.arrival_time_ms, .RequestArrival r⟩ acc.1,
            some (match acc.2 with
              | some current => min current r.arrival_time_ms
              | none => r.arrival_time_ms)))
        acc).1.Perm
        ((requests.map fun r =>
          (⟨r.arrival_time_ms, .RequestArrival r⟩ : ScheduledEvent)) ++
          acc.1) := by
  induction requests with
  | nil => intro acc; simp
  | cons r rs ih =>
      intro acc
      simp only [List.foldl_cons, List.map_cons, List.cons_append]
      refine (ih _).trans ?_
      refine (List.Perm.append_left _ (pushEvent_perm _ _)).trans ?_
      exact List.perm_middle

theorem seedQueue_perm (requests : List Request) :
    (seedQueue requests).1.Perm
      (requests.map fun r =>
        (⟨r.arrival_time_ms, .RequestArrival r⟩ : ScheduledEvent)) := by
  have := seedQueue_fold_perm requests ([], none)
  simpa [seedQueue] using this

theorem seedQueue_sorted (requests : List Request) :
    qSorted (seedQueue requests).1 := by
  have : ∀ (acc : List ScheduledEvent × Option Nat), qSorted acc.1 →
      qSorted (requests.foldl
        (fun acc r =>
          (pushEvent ⟨r.arrival_time_ms, .RequestArrival r⟩ acc.1,
            some (match acc.2 with
              | some current => min current r.arrival_time_ms
              | none => r.arrival_time_ms)))
        acc).1 := by
    induction requests with
    | nil => intro acc h; exact h
    | cons r rs ih =>
        intro acc h
        exact ih _ (pushEvent_sorted h)
  exact this ([], none) (by simp [qSorted])

theorem countCompl_seedQueue (requests : List Request) (i : Nat) :
    countCompl (seedQueue requests).1 i = 0 := by
  unfold countCompl
  rw [List.Perm.countP_eq _ (seedQueue_perm requests)]
  rw [List.countP_map]
  simp [Function.comp]

theorem countArr_seedQueue (requests : List Request) :
    countArr (seedQueue requests).1 = requests.length := by
  unfold countArr
  rw [List.Perm.countP_eq _ (seedQueue_perm requests)]
  rw [List.countP_map]
  simp [Function.comp]

theorem init_server_state_length (servers : List ServerConfig) :
    (init_server_state servers).length = servers.length := by
  simp [init_server_state]

theorem init_server_state_weights (servers : List ServerConfig) :
    (init_server_state servers).map (fun s => s.weight) =
      servers.map fun s => s.weight := by
  have h1 : servers.map (fun s => s.weight) =
      servers.enum.map fun p => p.2.weight := by
    rw [show servers.enum.map (fun p : Nat × ServerConfig => p.2.weight) =
        (servers.enum.map Prod.snd).map (fun s => s.weight) from by
      rw [List.map_map]
      rfl]
    rw [List.enum_map_snd]
  rw [h1]
  unfold init_server_state
  rw [List.map_map]
  rfl

theorem init_server_state_active (servers : List ServerConfig) :
    ∀ s ∈ init_server_state servers, s.active_connections = 0 := by
  intro s hs
  obtain ⟨p, _, rfl⟩ := List.mem_map.mp hs
  rfl

theorem validateServers_weights :
    ∀ (l : List ServerConfig) (names : List String),
      validateServers names l = .ok () → ∀ s ∈ l, 1 ≤ s.weight := by
  intro l
  induction l with
  | nil => intro names _ s hs; simp at hs
  | cons a l ih =>
      intro names h s hs
      unfold validateServers at h
      split_ifs at h with h1 h2 h3 h4
      rcases List.mem_cons.mp hs with rfl | hs'
      · omega
      · exact ih _ h s hs'

theorem validate_ok_facts (config : SimConfig)
    (h : validate_config config = .ok ()) :
    config.servers ≠ [] ∧ ∀ s ∈ config.servers, 1 ≤ s.weight := by
  by_cases hemp : config.servers.isEmpty
  · rw [validate_config, if_pos hemp] at h
    exact absurd h (by simp)
  · rw [validate_config, if_neg hemp] at h
    constructor
    · intro hnil
      rw [hnil] at hemp
      exact hemp rfl
    · rcases hv : validateServers [] config.servers with e | u
      · rw [hv] at h
        simp at h
      · cases u
        exact validateServers_weights _ _ hv

/-- The master invariant holds at loop entry, for any request list, once the
configuration has passed validation. -/
theorem initInv (config : SimConfig) (requests : List Request)
    (hok : validate_config config = .ok ()) :
    LoopInv config.servers.length (config.servers.map fun s => s.weight)
      requests.length (seedQueue requests).1 (initState config) := by
  obtain ⟨hne, hw⟩ := validate_ok_facts config hok
  refine ⟨?_, ?_, ?_, ?_, ?_, ?_, ?_, ?_, ?_, ?_, ?_, ?_, ?_, ?_⟩
  · exact init_server_state_length config.servers
  · exact init_server_state_weights config.servers
  · intro w hwmem
    obtain ⟨s, hs, rfl⟩ := List.mem_map.mp hwmem
    exact hw s hs
  · cases hcs : config.servers with
    | nil => exact absurd hcs hne
    | cons a l => simp [hcs]
  · exact List.length_replicate _ _
  · rcases halgo : config.algo with _ | _ | _ | _ <;>
      simp [initState, build_strategy, wrrCacheOK, halgo]
  · intro i hi
    rw [countCompl_seedQueue]
    have hlen : i < (init_server_state config.servers).length := by
      rw [init_server_state_length]
      exact hi
    rw [show (initState config).servers = init_server_state config.servers
      from rfl]
    rw [getD_lt_len _ _ hlen]
    exact init_server_state_active config.servers _ (List.get_mem _ _ _)
  · intro se hse sid rid hev
    have := (seedQueue_perm requests).mem_iff.mp hse
    obtain ⟨r, _, rfl⟩ := List.mem_map.mp this
    simp at hev
  · exact seedQueue_sorted requests
  · intro se _
    exact Nat.zero_le _
  · intro x hx
    simp [initState] at hx
  · show List.Chain' (· ≤ ·) ([] : List Nat)
    exact List.chain'_nil
  · rw [countArr_seedQueue]
    show (List.replicate config.servers.length 0).sum + requests.length =
      requests.length
    simp
  · rfl

/-! Extraction of per-server request counts from the totals summary. -/

theorem range_map_getD (c : List Nat) (n : Nat) (h : c.length = n) :
    (List.range n).map (fun i => c.getD i 0) = c := by
  subst h
  apply List.ext_get
  · simp
  · intro i h1 h2
    have h3 : i < c.length := by simpa using h2
    simp only [List.get_eq_getElem, List.getElem_map, List.getElem_range]
    rw [List.getD_eq_getElem?_getD, List.getElem?_eq_getElem h3]
    rfl

theorem finalize_totals_requests (config : SimConfig) (store : Bool)
    (fa : Option Nat) (final : LoopSt)
    (h : final.counts.length = final.servers.length) :
    (finalize config store fa final).totals.map (fun ts => ts.requests) =
      final.counts := by
  have h1 : (finalize config store fa final).totals =
      final.servers.enum.map fun (p : Nat × ServerState) =>
        ({ name := p.2.name
           requests := final.counts.getD p.1 0
           avg_response_ms :=
             if final.counts.getD p.1 0 = 0 then 0
             else final.total_response_ms.getD p.1 0 /
               final.counts.getD p.1 0 } : ServerSummary) := rfl
  rw [h1, List.map_map]
  have h2 : ((fun ts : ServerSummary => ts.requests) ∘
      fun (p : Nat × ServerState) =>
        ({ name := p.2.name
           requests := final.counts.getD p.1 0
           avg_response_ms :=
             if final.counts.getD p.1 0 = 0 then 0
             else final.total_response_ms.getD p.1 0 /
               final.counts.getD p.1 0 } : ServerSummary)) =
      (fun i => final.counts.getD i 0) ∘ Prod.fst := rfl
  rw [h2, ← List.map_map, List.enum_map_fst]
  exact range_map_getD _ _ (by rw [h])

/-! The summary-only mode differs from the full mode only in the recorded
assignment list. -/

theorem runLoop_store_erased (tb : TieBreakConfig) (seed : Nat)
    (oracle : Nat → Nat → Nat → Nat) :
    ∀ (n : Nat) (q : List ScheduledEvent) (st : LoopSt), queueLoad q ≤ n →
      runLoop tb seed oracle false q { st with assignments := [] } =
        { runLoop tb seed oracle true q st with assignments := [] } := by
  intro n
  induction n with
  | zero =>
      intro q st hle
      cases q with
      | nil => rw [runLoop_nil, runLoop_nil]
      | cons se q' =>
          exfalso
          rcases se with ⟨t, ev⟩
          cases ev <;> simp [queueLoad, Event.load] at hle
  | succ n ih =>
      intro q st hle
      cases q with
      | nil => rw [runLoop_nil, runLoop_nil]
      | cons se q' =>
          rcases se with ⟨t, ev⟩
          cases ev with
          | RequestArrival request =>
              rw [runLoop_arrival, runLoop_arrival]
              have hq : queueLoad (pushEvent (arrivalStep true
                  (eventDraw tb seed oracle st.rngCalls) request
                  { st with time_ms := t, popped_times := st.popped_times ++ [t] }).2 q') ≤ n := by
                rw [queueLoad_pushEvent, arrivalStep_event]
                simp only [queueLoad, Event.load] at hle ⊢
                omega
              show runLoop tb seed oracle false
                  (pushEvent (arrivalStep true
                    (eventDraw tb seed oracle st.rngCalls) request
                    { st with time_ms := t, popped_times := st.popped_times ++ [t] }).2 q')
                  { (arrivalStep true (eventDraw tb seed oracle st.rngCalls)
                      request
                      { st with time_ms := t, popped_times := st.popped_times ++ [t] }).1 with
                    assignments := [] } = _
              exact ih _ _ hq
          | RequestComplete sid rid =>
              rw [runLoop_complete, runLoop_complete]
              have hq : queueLoad q' ≤ n := by
                simp only [queueLoad, Event.load] at hle ⊢
                omega
              show runLoop tb seed oracle false q'
                  { completionStep sid
                      { st with time_ms := t, popped_times := st.popped_times ++ [t] } with
                    assignments := [] } = _
              exact ih _ _ hq

/-! Validation characterization. -/

theorem validateServers_ok_iff :
    ∀ (l : List ServerConfig) (names : List String),
      validateServers names l = .ok () ↔
        ((∀ s ∈ l, ¬ trimEmpty s.name = true ∧ s.base_latency_ms ≠ 0 ∧
            s.weight ≠ 0) ∧
          (l.map fun s => s.name).Nodup ∧
          ∀ s ∈ l, s.name ∉ names) := by
  intro l
  induction l with
  | nil => intro names; simp [validateServers]
  | cons a l ih =>
      intro names
      unfold validateServers
      split_ifs with h1 h2 h3 h4
      · simp only [show ((Except.error (Error.InvalidServerEntry a.name) :
          Except Error Unit) = .ok ()) ↔ False from by simp, false_iff]
        intro hcon
        exact (hcon.1 a (List.mem_cons_self a l)).1 h1
      · simp only [show ((Except.error (Error.InvalidLatencyValue a.name) :
          Except Error Unit) = .ok ()) ↔ False from by simp, false_iff]
        intro hcon
        exact (hcon.1 a (List.mem_cons_self a l)).2.1 h2
      · simp only [show ((Except.error (Error.InvalidWeightValue a.name) :
          Except Error Unit) = .ok ()) ↔ False from by simp, false_iff]
        intro hcon
        exact (hcon.1 a (List.mem_cons_self a l)).2.2 h3
      · simp only [show ((Except.error (Error.DuplicateServerName a.name) :
          Except Error Unit) = .ok ()) ↔ False from by simp, false_iff]
        intro hcon
        have := hcon.2.2 a (List.mem_cons_self a l)
        simp at h4
        exact this h4
      · rw [ih]
        simp only [List.mem_cons, List.map_cons, List.nodup_cons,
          List.mem_map]
        constructor
        · rintro ⟨hc, hn, hm⟩
          refine ⟨?_, ⟨?_, hn⟩, ?_⟩
          · rintro s (rfl | hs)
            · exact ⟨h1, h2, h3⟩
            · exact hc s hs
          · rintro ⟨s, hs, heq⟩
            have := hm s hs
            simp [heq] at this
          · rintro s (rfl | hs)
            · simpa using h4
            · intro hmem
              exact (hm s hs) (Or.inr hmem)
        · rintro ⟨hc, ⟨hdup, hn⟩, hm⟩
          refine ⟨?_, hn, ?_⟩
          · intro s hs
            exact hc s (Or.inr hs)
          · intro s hs
            rintro (heq | hmem)
            · exact hdup ⟨s, hs, heq⟩
            · exact hm s (Or.inr hs) hmem

theorem validate_config_ok_iff (config : SimConfig) :
    validate_config config = .ok () ↔
      (config.servers ≠ [] ∧
        (∀ s ∈ config.servers, ¬ trimEmpty s.name = true ∧
          s.base_latency_ms ≠ 0 ∧ s.weight ≠ 0) ∧
        (config.servers.map fun s => s.name).Nodup ∧
        (match config.requests with
          | .FixedCount count => count ≠ 0
          | .Poisson rate duration_ms => 0 < rate ∧ duration_ms ≠ 0
          | .Burst count _ => count ≠ 0) ∧
        ¬ (config.tie_break = .Seeded ∧ config.seed = none)) := by
  by_cases hemp : config.servers.isEmpty
  · rw [validate_config, if_pos hemp]
    rw [List.isEmpty_iff] at hemp
    simp [hemp]
  · rw [validate_config, if_neg hemp]
    rw [List.isEmpty_iff] at hemp
    rcases hv : validateServers [] config.servers with e | u
    · simp only [show ((Except.error e : Except Error Unit) = .ok ()) ↔ False
        from by simp, false_iff]
      rintro ⟨_, h2, h3, _, _⟩
      have : validateServers [] config.servers = .ok () :=
        (validateServers_ok_iff _ _).mpr ⟨h2, h3, by simp⟩
      rw [hv] at this
      simp at this
    · cases u
      have hvs := (validateServers_ok_iff config.servers []).mp hv
      have hrest : (match config.tie_break, config.seed with
            | TieBreakConfig.Seeded, none =>
                (Except.error Error.InvalidTieBreakSeed : Except Error Unit)
            | _, _ => Except.ok ()) = .ok () ↔
          ¬ (config.tie_break = .Seeded ∧ config.seed = none) := by
        rcases htb : config.tie_break with _ | _ <;>
          rcases hseed : config.seed with _ | sv <;>
            simp only [] <;> simp
      rcases hreq : config.requests with count | ⟨rate, dur⟩ | ⟨count, at_ms⟩
      · simp only []
        by_cases hc : count = 0
        · subst hc
          rw [if_pos rfl]
          simp only []
          constructor
          · intro h
            simp at h
          · rintro ⟨_, _, _, h4, _⟩
            exact absurd rfl h4
        · rw [if_neg hc]
          simp only []
          rw [hrest]
          constructor
          · intro h
            exact ⟨hemp, hvs.1, hvs.2.1, hc, h⟩
          · rintro ⟨_, _, _, _, h5⟩
            exact h5
      · simp only []
        by_cases hr : rate ≤ 0
        · rw [if_pos hr]
          simp only []
          constructor
          · intro h
            simp at h
          · rintro ⟨_, _, _, h4, _⟩
            exact absurd h4.1 (not_lt.mpr hr)
        · rw [if_neg hr]
          by_cases hd : dur = 0
          · subst hd
            rw [if_pos rfl]
            simp only []
            constructor
            · intro h
              simp at h
            · rintro ⟨_, _, _, h4, _⟩
              exact absurd rfl h4.2
          · rw [if_neg hd]
            simp only []
            rw [hrest]
            constructor
            · intro h
              exact ⟨hemp, hvs.1, hvs.2.1, ⟨lt_of_not_le hr, hd⟩, h⟩
            · rintro ⟨_, _, _, _, h5⟩
              exact h5
      · simp only []
        by_cases hc : count = 0
        · subst hc
          rw [if_pos rfl]
          simp only []
          constructor
          · intro h
            simp at h
          · rintro ⟨_, _, _, h4, _⟩
            exact absurd rfl h4
        · rw [if_neg hc]
          simp only []
          rw [hrest]
          constructor
          · intro h
            exact ⟨hemp, hvs.1, hvs.2.1, hc, h⟩
          · rintro ⟨_, _, _, _, h5⟩
            exact h5

/-! Least-connections selection characterizations. -/

theorem lc_min_eq (servers : List ServerState) (j : Nat)
    (hj : j < servers.length)
    (hbound : ∀ s ∈ servers, s.active_connections ≤ u32MAX)
    (hmin : ∀ k, k < servers.length →
      (servers.getD j default).active_connections ≤
        (servers.getD k default).active_connections) :
    scanMin (fun s => s.active_connections) u32MAX servers =
      (servers.getD j default).active_connections := by
  have hjmem : servers.getD j default ∈ servers := by
    rw [getD_lt_len _ _ hj]
    exact List.get_mem _ _ _
  have h1 : scanMin (fun s => s.active_connections) u32MAX servers ≤
      (servers.getD j default).active_connections :=
    scanMin_le_mem _ _ _ _ hjmem
  rcases scanMin_mem_or (fun s => s.active_connections) u32MAX servers with
    h | ⟨s, hs, h⟩
  · have h2 := hbound _ hjmem
    omega
  · obtain ⟨⟨k, hk⟩, hgk⟩ := List.mem_iff_get.mp hs
    have h3 := hmin k hk
    rw [getD_lt_len _ _ hk, hgk] at h3
    omega

theorem lc_select_unique (servers : List ServerState) (draw : Nat → Nat)
    (j : Nat) (hj : j < servers.length)
    (hbound : ∀ s ∈ servers, s.active_connections ≤ u32MAX)
    (huniq : ∀ k, k < servers.length → k ≠ j →
      (servers.getD j default).active_connections <
        (servers.getD k default).active_connections) :
    (selectStep .leastConnections servers draw).1.server_id = j := by
  have hminle : ∀ k, k < servers.length →
      (servers.getD j default).active_connections ≤
        (servers.getD k default).active_connections := by
    intro k hk
    by_cases hkj : k = j
    · subst hkj
      exact le_refl _
    · exact le_of_lt (huniq k hk hkj)
  have hM := lc_min_eq servers j hj hbound hminle
  have hsingle := attainIdx_singleton (fun s => s.active_connections) servers 0
    ((servers.getD j default).active_connections) j hj (by
      intro i hi
      constructor
      · intro hv
        simp only [] at hv
        by_contra hij
        have := huniq i hi hij
        omega
      · intro hv
        subst hv
        rfl)
  rw [selectStep_lc_eq, hM, hsingle]
  simp

theorem lc_select_stable_spec (servers : List ServerState)
    (hbound : ∀ s ∈ servers, s.active_connections ≤ u32MAX)
    (hne : 0 < servers.length) :
    (selectStep .leastConnections servers (fun _ => 0)).1.server_id <
        servers.length ∧
      (∀ k, k < servers.length →
        (servers.getD
          (selectStep .leastConnections servers
            (fun _ => 0)).1.server_id default).active_connections ≤
          (servers.getD k default).active_connections) ∧
      (∀ k, k < (selectStep .leastConnections servers
          (fun _ => 0)).1.server_id →
        (servers.getD
          (selectStep .leastConnections servers
            (fun _ => 0)).1.server_id default).active_connections <
          (servers.getD k default).active_connections) := by
  have hMle : ∀ i, i < servers.length →
      scanMin (fun s => s.active_connections) u32MAX servers ≤
        (servers.getD i default).active_connections := by
    intro i hi
    rw [getD_lt_len _ _ hi]
    exact scanMin_le_mem _ _ _ _ (List.get_mem _ _ _)
  have hattain : ∃ i, i < servers.length ∧
      (fun s => s.active_connections) (servers.getD i default) =
        scanMin (fun s => s.active_connections) u32MAX servers := by
    rcases scanMin_mem_or (fun s => s.active_connections) u32MAX servers with
      h | ⟨s, hs, h⟩
    · refine ⟨0, hne, ?_⟩
      have hmem : servers.getD 0 default ∈ servers := by
        rw [getD_lt_len _ _ hne]
        exact List.get_mem _ _ _
      have h2 := hbound _ hmem
      have h3 := hMle 0 hne
      simp only []
      omega
    · obtain ⟨⟨k, hk⟩, hgk⟩ := List.mem_iff_get.mp hs
      refine ⟨k, hk, ?_⟩
      rw [getD_lt_len _ _ hk, hgk]
      simp only [] at h ⊢
      omega
  rcases hcand : attainIdx (fun s => s.active_connections) 0
      (scanMin (fun s => s.active_connections) u32MAX servers) servers with
    _ | ⟨k, ks⟩
  · exact absurd hcand (attainIdx_ne_nil _ _ _ _ hattain)
  · obtain ⟨_, hk2, hk3, hk4⟩ := attainIdx_head_first _ _ _ _ _ _ hcand
    simp only [Nat.sub_zero] at hk2 hk3 hk4
    have hchosen : (selectStep .leastConnections servers
        (fun _ => 0)).1.server_id = k := by
      rw [selectStep_lc_eq, hcand]
      show (if (k :: ks).length = 1 then
          ((⟨(k :: ks).getD 0 0, none⟩ : Selection),
            StrategyState.leastConnections, false)
        else
          ((⟨(k :: ks).getD 0 0, none⟩ : Selection),
            StrategyState.leastConnections, true)).1.server_id = k
      split_ifs <;> rfl
    rw [hchosen]
    refine ⟨hk2, ?_, ?_⟩
    · intro i hi
      have := hMle i hi
      omega
    · intro i hik
      have h1 := hk4 i hik
      have h2 := hMle i (by omega)
      omega

/-! Weighted-round-robin cycle structure. -/

theorem selectPicks_succ (strat : StrategyState) (servers : List ServerState)
    (draw : Nat → Nat) (n : Nat) :
    selectPicks strat servers draw (n + 1) =
      (selectStep strat servers draw).1.server_id ::
        selectPicks (selectStep strat servers draw).2.1 servers draw n := rfl

theorem selectPicks_wrr_formula (servers : List ServerState)
    (draw : Nat → Nat) (hne : 0 < servers.length) :
    ∀ (n c : Nat),
      selectPicks
        (.weightedRoundRobin c ((servers.map fun s => s.weight).sum)
          (runningTotals 0 (servers.map fun s => s.weight)) servers.length)
        servers draw n =
        (List.range n).map fun k =>
          bsLoop (runningTotals 0 (servers.map fun s => s.weight))
            ((c + k) % (servers.map fun s => s.weight).sum) 0
            (runningTotals 0 (servers.map fun s => s.weight)).length := by
  have hisEmpty :
      (runningTotals 0 (servers.map fun s => s.weight)).isEmpty = false := by
    rcases hrt : runningTotals 0 (servers.map fun s => s.weight) with _ | ⟨a, l⟩
    · have h1 := runningTotals_length (servers.map fun s => s.weight) 0
      rw [hrt] at h1
      rw [List.length_map] at h1
      simp at h1
      omega
    · rw [hrt]
      rfl
  have hcond : ((runningTotals 0 (servers.map fun s => s.weight)).isEmpty ||
      decide (servers.length ≠ servers.length)) = false := by
    rw [hisEmpty]
    simp
  intro n
  induction n with
  | zero => intro c; rfl
  | succ n ih =>
      intro c
      rw [selectPicks_succ,
        selectStep_wrr_cached c ((servers.map fun s => s.weight).sum)
          (runningTotals 0 (servers.map fun s => s.weight)) servers.length
          servers draw hcond]
      rw [List.range_succ_eq_map, List.map_cons, List.map_map]
      simp only [Nat.add_zero]
      congr 1
      show selectPicks
        (.weightedRoundRobin
          ((c + 1) % (servers.map fun s => s.weight).sum)
          ((servers.map fun s => s.weight).sum)
          (runningTotals 0 (servers.map fun s => s.weight)) servers.length)
        servers draw n = _
      rw [ih ((c + 1) % (servers.map fun s => s.weight).sum)]
      apply List.map_congr_left
      intro k _
      simp only [Function.comp]
      congr 1
      rw [Nat.mod_add_mod]
      congr 1
      omega

theorem targets_rotate (W c : Nat) :
    ((List.range W).map fun k => (c + k) % W) =
      (List.range W).rotate (c % W) := by
  apply List.ext_get
  · rw [List.length_map, List.length_rotate]
  · intro i h1 h2
    have hW : i < W := by simpa using h1
    simp only [List.get_eq_getElem, List.getElem_map, List.getElem_range,
      List.getElem_rotate, List.length_range]
    rw [Nat.add_mod_mod]
    congr 1
    omega

theorem targets_perm (W c : Nat) :
    ((List.range W).map fun k => (c + k) % W).Perm (List.range W) := by
  rw [targets_rotate]
  exact List.rotate_perm _ _

theorem countP_range_intv :
    ∀ (W lo hi : Nat), hi ≤ W →
      (List.range W).countP (fun t => decide (lo ≤ t ∧ t < hi)) = hi - lo := by
  intro W
  induction W with
  | zero =>
      intro lo hi h
      simp at h
      subst h
      simp
  | succ W ih =>
      intro lo hi h
      rw [List.range_succ, List.countP_append]
      by_cases hh : hi ≤ W
      · rw [ih lo hi hh]
        have hzero :
            List.countP (fun t => decide (lo ≤ t ∧ t < hi)) [W] = 0 := by
          simp
          omega
        omega
      · have hhi : hi = W + 1 := by omega
        subst hhi
        have hsw : List.countP (fun t => decide (lo ≤ t ∧ t < W + 1))
            (List.range W) =
            List.countP (fun t => decide (lo ≤ t ∧ t < W)) (List.range W) := by
          apply List.countP_congr
          intro t ht
          have htW := List.mem_range.mp ht
          constructor <;> intro hb <;>
            exact decide_eq_true (by
              have := of_decide_eq_true hb
              omega)
        rw [hsw, ih lo W (le_refl W)]
        by_cases hlo : lo ≤ W
        · have hone :
              List.countP (fun t => decide (lo ≤ t ∧ t < W + 1)) [W] = 1 := by
            rw [List.countP_cons]
            simp only [List.countP_nil]
            rw [decide_eq_true (show lo ≤ W ∧ W < W + 1 from ⟨hlo, by omega⟩)]
            rfl
          omega
        · have hzero :
              List.countP (fun t => decide (lo ≤ t ∧ t < W + 1)) [W] = 0 := by
            rw [List.countP_cons]
            simp only [List.countP_nil]
            rw [decide_eq_false (show ¬ (lo ≤ W ∧ W < W + 1) from by omega)]
            rfl
          omega

/-- Over any window of total_weight consecutive picks (any starting cursor),
weighted round robin chooses server i exactly weight i times. -/
theorem wrr_cycle_count (servers : List ServerState) (draw : Nat → Nat)
    (c i : Nat) (hne : 0 < servers.length)
    (hw : ∀ s ∈ servers, 1 ≤ s.weight) (hi : i < servers.length) :
    (selectPicks
        (.weightedRoundRobin c ((servers.map fun s => s.weight).sum)
          (runningTotals 0 (servers.map fun s => s.weight)) servers.length)
        servers draw ((servers.map fun s => s.weight).sum)).count i =
      (servers.map fun s => s.weight).getD i 0 := by
  have hwsl : (servers.map fun s => s.weight).length = servers.length :=
    List.length_map _ _
  have hwsp : ∀ w ∈ servers.map fun s => s.weight, 1 ≤ w := by
    intro w hwmem
    obtain ⟨s, hs, rfl⟩ := List.mem_map.mp hwmem
    exact hw s hs
  rw [selectPicks_wrr_formula servers draw hne]
  rw [List.count_eq_countP, List.countP_map]
  have hstep1 :
      List.countP ((fun x => x == i) ∘ fun k =>
        bsLoop (runningTotals 0 (servers.map fun s => s.weight))
          ((c + k) % (servers.map fun s => s.weight).sum) 0
          (runningTotals 0 (servers.map fun s => s.weight)).length)
        (List.range ((servers.map fun s => s.weight).sum)) =
      List.countP (fun t =>
        bsLoop (runningTotals 0 (servers.map fun s => s.weight)) t 0
          (runningTotals 0 (servers.map fun s => s.weight)).length == i)
        ((List.range ((servers.map fun s => s.weight).sum)).map fun k =>
          (c + k) % (servers.map fun s => s.weight).sum) := by
    rw [List.countP_map]
    rfl
  rw [hstep1,
    List.Perm.countP_eq _ (targets_perm ((servers.map fun s => s.weight).sum) c)]
  have hstep2 :
      List.countP (fun t =>
        bsLoop (runningTotals 0 (servers.map fun s => s.weight)) t 0
          (runningTotals 0 (servers.map fun s => s.weight)).length == i)
        (List.range ((servers.map fun s => s.weight).sum)) =
      List.countP (fun t => decide
        (((servers.map fun s => s.weight).take i).sum ≤ t ∧
          t < ((servers.map fun s => s.weight).take (i + 1)).sum))
        (List.range ((servers.map fun s => s.weight).sum)) := by
    apply List.countP_congr
    intro t ht
    have htW : t < (servers.map fun s => s.weight).sum := by
      simpa using List.mem_range.mp ht
    have hiff := wrr_choose_eq_iff (servers.map fun s => s.weight) t i hwsp
      (by omega) htW (by omega)
    constructor
    · intro hb
      have := hiff.mp (by simpa using of_decide_eq_true hb)
      exact decide_eq_true this
    · intro hb
      have := hiff.mpr (of_decide_eq_true hb)
      simp [this]
  rw [hstep2]
  rw [countP_range_intv _ _ _ (by
    have h1 := take_sum_le (servers.map fun s => s.weight) (i + 1)
      (servers.map fun s => s.weight).length (by omega)
    rw [List.take_length] at h1
    exact h1)]
  have h2 := List.sum_take_succ (servers.map fun s => s.weight) i (by omega)
  have h3 : (servers.map fun s => s.weight).getD i 0 =
      getElem (servers.map fun s => s.weight) i (by omega) := by
    rw [List.getD_eq_getElem?_getD, List.getElem?_eq_getElem (by omega)]
    rfl
  omega

/-! Concrete evaluations of the engine (the loop is unfolded step by step
through its equations, everything else computes). -/

theorem eval_runA :
    run_simulation zeroTieOracle emptyPoissonGen sampleConfigA true =
      .ok resultA := by
  have e1 : runLoop .Stable 0 zeroTieOracle true
      [⟨0, .RequestArrival ⟨1, 0⟩⟩] (initState sampleConfigA) =
      runLoop .Stable 0 zeroTieOracle true [⟨1, .RequestComplete 0 1⟩]
        ⟨0, [⟨0, "a", 1, 1, 1, 1, 1, 1⟩], [⟨1, 0, 0, 0, 1, none⟩], [1], [1],
          [1], [1], 0, 1, .roundRobin 0, 0, [0], false⟩ := by
    rw [runLoop_arrival]
    rfl
  have e2 : runLoop .Stable 0 zeroTieOracle true [⟨1, .RequestComplete 0 1⟩]
      ⟨0, [⟨0, "a", 1, 1, 1, 1, 1, 1⟩], [⟨1, 0, 0, 0, 1, none⟩], [1], [1],
        [1], [1], 0, 1, .roundRobin 0, 0, [0], false⟩ =
      ⟨1, [⟨0, "a", 1, 1, 0, 1, 0, 1⟩], [⟨1, 0, 0, 0, 1, none⟩], [1], [1],
        [1], [1], 0, 1, .roundRobin 0, 0, [0, 1], false⟩ := by
    rw [runLoop_complete, runLoop_nil]
    rfl
  calc run_simulation zeroTieOracle emptyPoissonGen sampleConfigA true
      = .ok (finalize sampleConfigA true (some 0)
          (runLoop .Stable 0 zeroTieOracle true
            [⟨0, .RequestArrival ⟨1, 0⟩⟩] (initState sampleConfigA))) := rfl
    _ = .ok (finalize sampleConfigA true (some 0)
          ⟨1, [⟨0, "a", 1, 1, 0, 1, 0, 1⟩], [⟨1, 0, 0, 0, 1, none⟩], [1],
            [1], [1], [1], 0, 1, .roundRobin 0, 0, [0, 1], false⟩) := by
        rw [e1, e2]
    _ = _ := by
        simp only [finalize, nearest_rank_percentile, round_to]
        norm_num [resultA, resultB, round_eq, List.insertionSort, List.orderedInsert, sampleConfigA,
          sampleConfigB, AlgoConfig.displayName, TieBreakConfig.label_with_seed]

theorem eval_runB :
    run_simulation zeroTieOracle emptyPoissonGen sampleConfigB true =
      .ok resultB := by
  have e1 : runLoop .Stable 0 zeroTieOracle true
      [⟨0, .RequestArrival ⟨1, 0⟩⟩, ⟨1, .RequestArrival ⟨2, 1⟩⟩]
      (initState sampleConfigB) =
      runLoop .Stable 0 zeroTieOracle true
        [⟨1, .RequestArrival ⟨2, 1⟩⟩, ⟨5, .RequestComplete 0 1⟩]
        ⟨0, [⟨0, "api", 5, 1, 1, 1, 1, 5⟩], [⟨1, 0, 0, 0, 5, none⟩], [1],
          [5], [5], [5], 0, 5, .roundRobin 0, 0, [0], false⟩ := by
    rw [runLoop_arrival]
    rfl
  have e2 : runLoop .Stable 0 zeroTieOracle true
      [⟨1, .RequestArrival ⟨2, 1⟩⟩, ⟨5, .RequestComplete 0 1⟩]
      ⟨0, [⟨0, "api", 5, 1, 1, 1, 1, 5⟩], [⟨1, 0, 0, 0, 5, none⟩], [1],
        [5], [5], [5], 0, 5, .roundRobin 0, 0, [0], false⟩ =
      runLoop .Stable 0 zeroTieOracle true
        [⟨5, .RequestComplete 0 1⟩, ⟨10, .RequestComplete 0 2⟩]
        ⟨1, [⟨0, "api", 5, 1, 2, 2, 2, 10⟩],
          [⟨1, 0, 0, 0, 5, none⟩, ⟨2, 0, 1, 5, 10, none⟩], [2], [14], [10],
          [5, 9], 4, 10, .roundRobin 0, 0, [0, 1], false⟩ := by
    rw [runLoop_arrival]
    rfl
  have e3 : runLoop .Stable 0 zeroTieOracle true
      [⟨5, .RequestComplete 0 1⟩, ⟨10, .RequestComplete 0 2⟩]
      ⟨1, [⟨0, "api", 5, 1, 2, 2, 2, 10⟩],
        [⟨1, 0, 0, 0, 5, none⟩, ⟨2, 0, 1, 5, 10, none⟩], [2], [14], [10],
        [5, 9], 4, 10, .roundRobin 0, 0, [0, 1], false⟩ =
      runLoop .Stable 0 zeroTieOracle true [⟨10, .RequestComplete 0 2⟩]
        ⟨5, [⟨0, "api", 5, 1, 1, 2, 1, 10⟩],
          [⟨1, 0, 0, 0, 5, none⟩, ⟨2, 0, 1, 5, 10, none⟩], [2], [14], [10],
          [5, 9], 4, 10, .roundRobin 0, 0, [0, 1, 5], false⟩ := by
    rw [runLoop_complete]
    rfl
  have e4 : runLoop .Stable 0 zeroTieOracle true [⟨10, .RequestComplete 0 2⟩]
      ⟨5, [⟨0, "api", 5, 1, 1, 2, 1, 10⟩],
        [⟨1, 0, 0, 0, 5, none⟩, ⟨2, 0, 1, 5, 10, none⟩], [2], [14], [10],
        [5, 9], 4, 10, .roundRobin 0, 0, [0, 1, 5], false⟩ =
      ⟨10, [⟨0, "api", 5, 1, 0, 2, 0, 10⟩],
        [⟨1, 0, 0, 0, 5, none⟩, ⟨2, 0, 1, 5, 10, none⟩], [2], [14], [10],
        [5, 9], 4, 10, .roundRobin 0, 0, [0, 1, 5, 10], false⟩ := by
    rw [runLoop_complete, runLoop_nil]
    rfl
  calc run_simulation zeroTieOracle emptyPoissonGen sampleConfigB true
      = .ok (finalize sampleConfigB true (some 0)
          (runLoop .Stable 0 zeroTieOracle true
            [⟨0, .RequestArrival ⟨1, 0⟩⟩, ⟨1, .RequestArrival ⟨2, 1⟩⟩]
            (initState sampleConfigB))) := rfl
    _ = .ok (finalize sampleConfigB true (some 0)
          ⟨10, [⟨0, "api", 5, 1, 0, 2, 0, 10⟩],
            [⟨1, 0, 0, 0, 5, none⟩, ⟨2, 0, 1, 5, 10, none⟩], [2], [14], [10],
            [5, 9], 4, 10, .roundRobin 0, 0, [0, 1, 5, 10], false⟩) := by
        rw [e1, e2, e3, e4]
    _ = _ := by
        simp only [finalize, nearest_rank_percentile, round_to]
        norm_num [resultA, resultB, round_eq, List.insertionSort, List.orderedInsert, sampleConfigA,
          sampleConfigB, AlgoConfig.displayName, TieBreakConfig.label_with_seed]
        have hc1 : (⌈(19 : ℚ) / 10⌉) = 2 := by
          rw [Int.ceil_eq_iff] <;> norm_num
        have hc2 : (⌈(99 : ℚ) / 50⌉) = 2 := by
          rw [Int.ceil_eq_iff] <;> norm_num
        norm_num [hc1, hc2]
        rfl

theorem wrr_picks_21 (s1 s2 : ServerState) (draw : Nat → Nat)
    (hw1 : s1.weight = 2) (hw2 : s2.weight = 1) :
    selectPicks (build_strategy .WeightedRoundRobin) [s1, s2] draw 6 =
      [0, 0, 1, 0, 0, 1] := by
  have hmap : ([s1, s2].map fun s => s.weight) = [2, 1] := by
    simp [hw1, hw2]
  have hselF : selectStep (build_strategy .WeightedRoundRobin) [s1, s2] draw =
      (⟨0, none⟩, .weightedRoundRobin 1 3 [2, 3] 2, false) := by
    rw [show build_strategy .WeightedRoundRobin =
      StrategyState.weightedRoundRobin 0 0 [] 0 from rfl]
    rw [selectStep_wrr_rebuild 0 0 [] 0 [s1, s2] draw rfl]
    rw [hmap]
    have hb : bsLoop (runningTotals 0 [2, 1]) (0 % ([2, 1] : List Nat).sum) 0
        (runningTotals 0 [2, 1]).length = 0 :=
      (wrr_choose_eq_iff [2, 1] (0 % ([2, 1] : List Nat).sum) 0 (by decide)
        (by decide) (by decide) (by decide)).mpr (by decide)
    rw [hb]
    rfl
  have hsel1 : selectStep (.weightedRoundRobin 1 3 [2, 3] 2) [s1, s2] draw =
      (⟨0, none⟩, .weightedRoundRobin 2 3 [2, 3] 2, false) := by
    rw [selectStep_wrr_cached 1 3 [2, 3] 2 [s1, s2] draw rfl]
    have hb : bsLoop [2, 3] (1 % 3) 0 ([2, 3] : List Nat).length = 0 :=
      (wrr_choose_eq_iff [2, 1] (1 % 3) 0 (by decide) (by decide) (by decide)
        (by decide)).mpr (by decide)
    rw [hb]
  have hsel2 : selectStep (.weightedRoundRobin 2 3 [2, 3] 2) [s1, s2] draw =
      (⟨1, none⟩, .weightedRoundRobin 0 3 [2, 3] 2, false) := by
    rw [selectStep_wrr_cached 2 3 [2, 3] 2 [s1, s2] draw rfl]
    have hb : bsLoop [2, 3] (2 % 3) 0 ([2, 3] : List Nat).length = 1 :=
      (wrr_choose_eq_iff [2, 1] (2 % 3) 1 (by decide) (by decide) (by decide)
        (by decide)).mpr (by decide)
    rw [hb]
  have hsel0 : selectStep (.weightedRoundRobin 0 3 [2, 3] 2) [s1, s2] draw =
      (⟨0, none⟩, .weightedRoundRobin 1 3 [2, 3] 2, false) := by
    rw [selectStep_wrr_cached 0 3 [2, 3] 2 [s1, s2] draw rfl]
    have hb : bsLoop [2, 3] (0 % 3) 0 ([2, 3] : List Nat).length = 0 :=
      (wrr_choose_eq_iff [2, 1] (0 % 3) 0 (by decide) (by decide) (by decide)
        (by decide)).mpr (by decide)
    rw [hb]
  calc selectPicks (build_strategy .WeightedRoundRobin) [s1, s2] draw 6
      = 0 :: selectPicks (.weightedRoundRobin 1 3 [2, 3] 2) [s1, s2] draw 5 := by
        rw [selectPicks_succ, hselF]
    _ = 0 :: 0 :: selectPicks (.weightedRoundRobin 2 3 [2, 3] 2) [s1, s2]
          draw 4 := by
        rw [selectPicks_succ, hsel1]
    _ = 0 :: 0 :: 1 :: selectPicks (.weightedRoundRobin 0 3 [2, 3] 2) [s1, s2]
          draw 3 := by
        rw [selectPicks_succ, hsel2]
    _ = 0 :: 0 :: 1 :: 0 :: selectPicks (.weightedRoundRobin 1 3 [2, 3] 2)
          [s1, s2] draw 2 := by
        rw [selectPicks_succ, hsel0]
    _ = 0 :: 0 :: 1 :: 0 :: 0 :: selectPicks (.weightedRoundRobin 2 3 [2, 3] 2)
          [s1, s2] draw 1 := by
        rw [selectPicks_succ, hsel1]
    _ = 0 :: 0 :: 1 :: 0 :: 0 :: 1 :: selectPicks
          (.weightedRoundRobin 0 3 [2, 3] 2) [s1, s2] draw 0 := by
        rw [selectPicks_succ, hsel2]
    _ = [0, 0, 1, 0, 0, 1] := rfl

/-! The claims. -/

/-- C1: run_simulation is a pure function of the configuration and the two
RNG-stream oracles (the shallow embedding of the code's seed-determined
StdRng streams), so two invocations of the engine on the same SimConfig,
seed included, return identical Assignment sequences and identical aggregate
metrics (totals, metadata, percentiles, utilization, fairness, throughput,
average wait). -/
theorem claimC1_deterministic_replay (tieOracle : Nat → Nat → Nat → Nat)
    (poissonGen : Nat → Rat → Nat → List Request) (config : SimConfig)
    (store : Bool) (r1 r2 : SimulationResult)
    (h1 : run_simulation tieOracle poissonGen config store = .ok r1)
    (h2 : run_simulation tieOracle poissonGen config store = .ok r2) :
    r1.assignments = r2.assignments ∧ r1.totals = r2.totals ∧
      r1.metadata = r2.metadata ∧ r1.phase1_metrics = r2.phase1_metrics := by
  rw [h1] at h2
  injection h2 with h
  subst h
  exact ⟨rfl, rfl, rfl, rfl⟩

theorem claimC1_witness :
    resultA.assignments = resultA.assignments ∧
      resultA.totals = resultA.totals ∧
      resultA.metadata = resultA.metadata ∧
      resultA.phase1_metrics = resultA.phase1_metrics :=
  claimC1_deterministic_replay zeroTieOracle emptyPoissonGen sampleConfigA
    true resultA resultA eval_runA eval_runA

/-- C2 counterexample: at equal time_ms, two RequestComplete events are
ordered by their request_id (Event::tiebreaker returns request_id for
completions), not by their server_id as the spec's sentence states.  Event
a (server 5, request 1) sorts before event b (server 2, request 3) in the
code, while the spec's described key order puts a after b. -/
theorem claimC2_counterexample :
    ScheduledEvent.cmp ⟨0, .RequestComplete 5 1⟩ ⟨0, .RequestComplete 2 3⟩ =
        .lt ∧
      specCmpOfSpec ⟨0, .RequestComplete 5 1⟩ ⟨0, .RequestComplete 2 3⟩ =
        .gt ∧
      Event.tiebreaker (.RequestComplete 5 1) = 1 ∧
      specTiebreakerOfSpec (.RequestComplete 5 1) = 5 :=
  ⟨rfl, rfl, rfl, rfl⟩

/-- C2 (amended): ScheduledEvent.cmp is a total order with primary key
time_ms ascending, secondary key event kind (RequestComplete priority 0
before RequestArrival priority 1 at equal time), and tertiary key the
event's request id — the request_id field for a completion and the
request's id for an arrival (not the server_id, as Event::tiebreaker
shows): the lexicographic characterization, the two key values, totality
and transitivity of the induced ≤, and antisymmetry of cmp under swap. -/
theorem claimC2_event_order_amended :
    (∀ a b : ScheduledEvent, ScheduledEvent.cmp a b = .lt ↔
      (a.time_ms < b.time_ms ∨ (a.time_ms = b.time_ms ∧
        (a.event.priority < b.event.priority ∨
          (a.event.priority = b.event.priority ∧
            a.event.tiebreaker < b.event.tiebreaker))))) ∧
      (∀ sid rid, Event.priority (.RequestComplete sid rid) = 0) ∧
      (∀ r, Event.priority (.RequestArrival r) = 1) ∧
      (∀ sid rid, Event.tiebreaker (.RequestComplete sid rid) = rid) ∧
      (∀ r, Event.tiebreaker (.RequestArrival r) = r.id) ∧
      (∀ a b : ScheduledEvent,
        ScheduledEvent.le a b ∨ ScheduledEvent.le b a) ∧
      (∀ a b c : ScheduledEvent, ScheduledEvent.le a b →
        ScheduledEvent.le b c → ScheduledEvent.le a c) ∧
      (∀ a b : ScheduledEvent,
        ScheduledEvent.cmp b a = (ScheduledEvent.cmp a b).swap) :=
  ⟨cmp_eq_lt_iff, fun _ _ => rfl, fun _ => rfl, fun _ _ => rfl, fun _ => rfl,
    le_total_ev, fun _ _ _ => le_trans_ev, cmp_swap_ev⟩

theorem claimC2_witness :
    ScheduledEvent.le ⟨1, .RequestComplete 0 1⟩ ⟨2, .RequestArrival ⟨3, 2⟩⟩ :=
  claimC2_event_order_amended.2.2.2.2.2.2.1 ⟨1, .RequestComplete 0 1⟩
    ⟨1, .RequestArrival ⟨2, 1⟩⟩ ⟨2, .RequestArrival ⟨3, 2⟩⟩ (by decide)
    (by decide)

/-- C3: processing a RequestArrival appends one assignment whose started_at
is max(engine clock, chosen server's next_available_ms) and whose
completed_at is started_at + base_latency_ms; concretely, one server with
base_latency_ms = 5 under FixedCount 2 yields started_at [0, 5],
completed_at [5, 10] and per-server average response ((5-0)+(10-1))/2 = 7. -/
theorem claimC3_service_schedule :
    (∀ (draw : Nat → Nat) (request : Request) (st : LoopSt),
      (arrivalStep true draw request st).1.assignments =
        st.assignments ++
          [{ request_id := request.id
             server_id := (selectStep st.strat st.servers draw).1.server_id
             arrival_time_ms := request.arrival_time_ms
             started_at := max st.time_ms
               (st.servers.getD
                 (selectStep st.strat st.servers draw).1.server_id
                 default).next_available_ms
             completed_at := max st.time_ms
               (st.servers.getD
                 (selectStep st.strat st.servers draw).1.server_id
                 default).next_available_ms +
               (st.servers.getD
                 (selectStep st.strat st.servers draw).1.server_id
                 default).base_latency_ms
             score := (selectStep st.strat st.servers draw).1.score }]) ∧
      (run_simulation zeroTieOracle emptyPoissonGen sampleConfigB true).map
        (fun r => (r.assignments.map fun a => a.started_at,
          r.assignments.map fun a => a.completed_at,
          r.totals.map fun ts => ts.avg_response_ms)) =
        .ok ([0, 5], [5, 10], [7]) := by
  refine ⟨fun draw request st => rfl, ?_⟩
  rw [eval_runB]
  rfl

/-- C4: WeightedRoundRobin from a fresh cursor over two servers of weights
[2, 1] picks [0, 0, 1, 0, 0, 1] in 6 calls regardless of the RNG draw; every
full cycle of total_weight picks contains each index exactly weight-many
times; and the binary search over the prefix sums returns the first index
whose prefix sum strictly exceeds the cursor value mod total_weight. -/
theorem claimC4_wrr_proportional :
    (∀ (s1 s2 : ServerState) (draw : Nat → Nat),
      s1.weight = 2 → s2.weight = 1 →
      selectPicks (build_strategy .WeightedRoundRobin) [s1, s2] draw 6 =
        [0, 0, 1, 0, 0, 1]) ∧
      (∀ (servers : List ServerState) (draw : Nat → Nat) (c i : Nat),
        0 < servers.length → (∀ s ∈ servers, 1 ≤ s.weight) →
        i < servers.length →
        (selectPicks
            (.weightedRoundRobin c ((servers.map fun s => s.weight).sum)
              (runningTotals 0 (servers.map fun s => s.weight))
              servers.length)
            servers draw ((servers.map fun s => s.weight).sum)).count i =
          (servers.map fun s => s.weight).getD i 0) ∧
      (∀ (ws : List Nat) (t : Nat),
        (∀ w ∈ ws, 1 ≤ w) → 0 < ws.length → t < ws.sum →
        bsLoop (runningTotals 0 ws) t 0 (runningTotals 0 ws).length <
            ws.length ∧
          t < (runningTotals 0 ws).getD
            (bsLoop (runningTotals 0 ws) t 0 (runningTotals 0 ws).length) 0 ∧
          ∀ j, j < bsLoop (runningTotals 0 ws) t 0
              (runningTotals 0 ws).length →
            (runningTotals 0 ws).getD j 0 ≤ t) :=
  ⟨fun s1 s2 draw hw1 hw2 => wrr_picks_21 s1 s2 draw hw1 hw2,
    fun servers draw c i hne hw hi => wrr_cycle_count servers draw c i hne hw hi,
    fun ws t hpos hne ht => wrr_choose_spec ws t hpos hne ht⟩

theorem claimC4_witness :
    selectPicks (build_strategy .WeightedRoundRobin)
      [⟨0, "a", 10, 2, 0, 0, 0, 0⟩, ⟨1, "b", 10, 1, 0, 0, 0, 0⟩]
      (fun _ => 3) 6 = [0, 0, 1, 0, 0, 1] :=
  claimC4_wrr_proportional.1 ⟨0, "a", 10, 2, 0, 0, 0, 0⟩
    ⟨1, "b", 10, 1, 0, 0, 0, 0⟩ (fun _ => 3) rfl rfl

/-- C5: LeastConnections picks the unique minimal-active_connections server
when the minimum is unique (in particular counts [3, 1, 2] give index 1 for
every RNG draw), and under Stable tie-break (the constant-0 StableRng
stream) it picks the first, lowest-index candidate among the tied minima:
the pick is in range, its count is minimal, and every lower index has a
strictly larger count — independent of any seed. -/
theorem claimC5_least_connections :
    (∀ (servers : List ServerState) (draw : Nat → Nat) (j : Nat),
      j < servers.length →
      (∀ s ∈ servers, s.active_connections ≤ u32MAX) →
      (∀ k, k < servers.length → k ≠ j →
        (servers.getD j default).active_connections <
          (servers.getD k default).active_connections) →
      (selectStep .leastConnections servers draw).1.server_id = j) ∧
      (∀ (a b c : ServerState) (draw : Nat → Nat),
        a.active_connections = 3 → b.active_connections = 1 →
        c.active_connections = 2 →
        (selectStep .leastConnections [a, b, c] draw).1.server_id = 1) ∧
      (∀ servers : List ServerState,
        (∀ s ∈ servers, s.active_connections ≤ u32MAX) →
        0 < servers.length →
        (selectStep .leastConnections servers (fun _ => 0)).1.server_id <
            servers.length ∧
          (∀ k, k < servers.length →
            (servers.getD
              (selectStep .leastConnections servers
                (fun _ => 0)).1.server_id default).active_connections ≤
              (servers.getD k default).active_connections) ∧
          (∀ k, k < (selectStep .leastConnections servers
              (fun _ => 0)).1.server_id →
            (servers.getD
              (selectStep .leastConnections servers
                (fun _ => 0)).1.server_id default).active_connections <
              (servers.getD k default).active_connections)) := by
  refine ⟨lc_select_unique, ?_, lc_select_stable_spec⟩
  intro a b c draw ha hb hc
  apply lc_select_unique [a, b, c] draw 1 (by simp)
  · intro s hs
    simp only [List.mem_cons, List.mem_singleton, List.not_mem_nil,
      or_false] at hs
    rcases hs with rfl | rfl | rfl
    · rw [ha]; decide
    · rw [hb]; decide
    · rw [hc]; decide
  · intro k hk hk1
    match k, hk, hk1 with
    | 0, _, _ =>
        show b.active_connections < a.active_connections
        omega
    | 1, _, h1 => exact absurd rfl h1
    | 2, _, _ =>
        show b.active_connections < c.active_connections
        omega

theorem claimC5_witness :
    (selectStep .leastConnections
      [⟨0, "a", 1, 1, 3, 0, 0, 0⟩, ⟨1, "b", 1, 1, 1, 0, 0, 0⟩,
        ⟨2, "c", 1, 1, 2, 0, 0, 0⟩] (fun _ => 7)).1.server_id = 1 :=
  claimC5_least_connections.2.1 ⟨0, "a", 1, 1, 3, 0, 0, 0⟩
    ⟨1, "b", 1, 1, 1, 0, 0, 0⟩ ⟨2, "c", 1, 1, 2, 0, 0, 0⟩ (fun _ => 7)
    rfl rfl rfl

/-- C6: on every configuration that passes validation, the engine loop never
decrements a server's active_connections below zero: the underflow ghost
flag of the embedded loop — set exactly when a completion finds a zero
counter — is still false in the final state, for every request list, RNG
oracle and store mode (the master invariant ties each pending completion to
an earlier increment, and the queue order pops completions first at equal
times). -/
theorem claimC6_no_underflow (config : SimConfig) (requests : List Request)
    (tieOracle : Nat → Nat → Nat → Nat) (store : Bool)
    (h : validate_config config = .ok ()) :
    (engine_run tieOracle config store requests).underflow = false :=
  (runLoop_post config.tie_break (engineSeed config) tieOracle store
    (queueLoad (seedQueue requests).1) (seedQueue requests).1
    (initState config) (le_refl _) (initInv config requests h)).1

theorem claimC6_witness :
    validate_config sampleConfigA = .ok () ∧
      (engine_run zeroTieOracle sampleConfigA true [⟨1, 0⟩]).underflow =
        false :=
  ⟨rfl, claimC6_no_underflow sampleConfigA [⟨1, 0⟩] zeroTieOracle true rfl⟩

/-- C7: whenever run_simulation succeeds, the per-server request totals of
its summary sum to the number of generated requests (the length of the list
build_requests produced for the profile). -/
theorem claimC7_totals_sum (tieOracle : Nat → Nat → Nat → Nat)
    (poissonGen : Nat → Rat → Nat → List Request) (config : SimConfig)
    (store : Bool) (result : SimulationResult) (requests : List Request)
    (hrun : run_simulation tieOracle poissonGen config store = .ok result)
    (hreq : build_requests poissonGen config.requests config.seed =
      .ok requests) :
    (result.totals.map fun ts => ts.requests).sum = requests.length := by
  rcases hv : validate_config config with e | u
  · rw [run_simulation, hv] at hrun
    simp at hrun
  · cases u
    rw [run_simulation, hv, hreq] at hrun
    simp only [] at hrun
    injection hrun with h
    subst h
    obtain ⟨-, hsum, -, hclen, hslen⟩ := runLoop_post config.tie_break
      (engineSeed config) tieOracle store
      (queueLoad (seedQueue requests).1) (seedQueue requests).1
      (initState config) (le_refl _) (initInv config requests hv)
    rw [finalize_totals_requests config store (seedQueue requests).2
      (engine_run tieOracle config store requests)
      (hclen.trans hslen.symm)]
    exact hsum

theorem claimC7_witness :
    run_simulation zeroTieOracle emptyPoissonGen sampleConfigA true =
        .ok resultA ∧
      build_requests emptyPoissonGen sampleConfigA.requests
          sampleConfigA.seed = .ok [⟨1, 0⟩] ∧
      (resultA.totals.map fun ts => ts.requests).sum = 1 :=
  ⟨eval_runA, rfl, claimC7_totals_sum zeroTieOracle emptyPoissonGen
    sampleConfigA true resultA [⟨1, 0⟩] eval_runA rfl⟩

/-- C8: validation runs before the event loop and returns the first
violation as an error value: validate_config succeeds exactly on the valid
configurations (full characterization); a validation error is returned
unchanged by run_simulation; after validation and request generation
succeed, the run always returns ok (the loop has no fallible operation);
and each invalid-category example maps to its error, the last one showing
the first of several violations winning. -/
theorem claimC8_validation :
    (∀ config : SimConfig, validate_config config = .ok () ↔
      (config.servers ≠ [] ∧
        (∀ s ∈ config.servers, ¬ trimEmpty s.name = true ∧
          s.base_latency_ms ≠ 0 ∧ s.weight ≠ 0) ∧
        (config.servers.map fun s => s.name).Nodup ∧
        (match config.requests with
          | .FixedCount count => count ≠ 0
          | .Poisson rate duration_ms => 0 < rate ∧ duration_ms ≠ 0
          | .Burst count _ => count ≠ 0) ∧
        ¬ (config.tie_break = .Seeded ∧ config.seed = none))) ∧
      (∀ (tieOracle : Nat → Nat → Nat → Nat)
        (poissonGen : Nat → Rat → Nat → List Request) (config : SimConfig)
        (store : Bool) (e : Error), validate_config config = .error e →
        run_simulation tieOracle poissonGen config store = .error e) ∧
      (∀ (tieOracle : Nat → Nat → Nat → Nat)
        (poissonGen : Nat → Rat → Nat → List Request) (config : SimConfig)
        (store : Bool) (requests : List Request),
        validate_config config = .ok () →
        build_requests poissonGen config.requests config.seed =
          .ok requests →
        run_simulation tieOracle poissonGen config store =
          .ok (finalize config store (seedQueue requests).2
            (engine_run tieOracle config store requests))) ∧
      validate_config ⟨[], .FixedCount 1, .RoundRobin, .Stable, none⟩ =
        .error .EmptyServers ∧
      validate_config ⟨[⟨"a", 1, 1⟩, ⟨"a", 2, 1⟩], .FixedCount 1,
          .RoundRobin, .Stable, none⟩ =
        .error (.DuplicateServerName "a") ∧
      validate_config ⟨[⟨"a", 0, 1⟩], .FixedCount 1, .RoundRobin, .Stable,
          none⟩ =
        .error (.InvalidLatencyValue "a") ∧
      validate_config ⟨[⟨"a", 1, 0⟩], .FixedCount 1, .RoundRobin, .Stable,
          none⟩ =
        .error (.InvalidWeightValue "a") ∧
      validate_config ⟨[⟨"a", 1, 1⟩], .FixedCount 0, .RoundRobin, .Stable,
          none⟩ =
        .error .RequestsZero ∧
      validate_config ⟨[⟨"a", 1, 1⟩], .Poisson 0 10, .RoundRobin, .Stable,
          none⟩ =
        .error (.InvalidRequestRate 0) ∧
      validate_config ⟨[⟨"a", 1, 1⟩], .Poisson 2 0, .RoundRobin, .Stable,
          none⟩ =
        .error (.InvalidRequestDuration 0) ∧
      validate_config ⟨[⟨"a", 1, 1⟩], .FixedCount 1, .RoundRobin, .Seeded,
          none⟩ =
        .error .InvalidTieBreakSeed ∧
      validate_config ⟨[⟨"a", 0, 1⟩, ⟨"a", 2, 1⟩], .FixedCount 0,
          .RoundRobin, .Seeded, none⟩ =
        .error (.InvalidLatencyValue "a") := by
  refine ⟨validate_config_ok_iff, ?_, ?_, rfl, rfl, rfl, rfl, rfl, rfl, rfl,
    rfl, rfl⟩
  · intro tieOracle poissonGen config store e hv
    rw [run_simulation, hv]
  · intro tieOracle poissonGen config store requests hv hb
    rw [run_simulation, hv, hb]

theorem claimC8_witness :
    run_simulation zeroTieOracle emptyPoissonGen
      ⟨[], .FixedCount 1, .RoundRobin, .Stable, none⟩ true =
      .error .EmptyServers :=
  claimC8_validation.2.1 zeroTieOracle emptyPoissonGen
    ⟨[], .FixedCount 1, .RoundRobin, .Stable, none⟩ true .EmptyServers rfl

/-- C9: the store_assignments flag only controls whether the assignments
list is retained: for every config and every oracle pair, the summary-only
run equals the full run with its assignments list emptied — totals,
metadata and all phase-1 metrics included. -/
theorem claimC9_store_assignments_frame (tieOracle : Nat → Nat → Nat → Nat)
    (poissonGen : Nat → Rat → Nat → List Request) (config : SimConfig) :
    run_simulation tieOracle poissonGen config false =
      (run_simulation tieOracle poissonGen config true).map
        (fun r => { r with assignments := [] }) := by
  rcases hv : validate_config config with e | u
  · simp only [run_simulation, hv]
    rfl
  · cases u
    rcases hb : build_requests poissonGen config.requests config.seed with
      e | reqs
    · simp only [run_simulation, hv, hb]
      rfl
    · simp only [run_simulation, hv, hb]
      have he : engine_run tieOracle config false reqs =
          { engine_run tieOracle config true reqs with assignments := [] } :=
        runLoop_store_erased config.tie_break (engineSeed config) tieOracle
          (queueLoad (seedQueue reqs).1) (seedQueue reqs).1
          (initState config) (le_refl _)
      rw [he]
      rfl

theorem claimC9_witness :
    run_simulation zeroTieOracle emptyPoissonGen sampleConfigA false =
      (run_simulation zeroTieOracle emptyPoissonGen sampleConfigA true).map
        (fun r => { r with assignments := [] }) :=
  claimC9_store_assignments_frame zeroTieOracle emptyPoissonGen sampleConfigA

/-- C10: on every configuration that passes validation, the engine clock is
non-decreasing through the run: the sequence of popped event times (the
clock's value at each loop iteration, recorded in the popped_times ghost
trace) is chain-monotone, because every completion pushed during processing
is scheduled at completed_at ≥ the current clock and the queue is kept
sorted. -/
theorem claimC10_monotone_times (config : SimConfig)
    (requests : List Request) (tieOracle : Nat → Nat → Nat → Nat)
    (store : Bool) (h : validate_config config = .ok ()) :
    List.Chain' (· ≤ ·)
      (engine_run tieOracle config store requests).popped_times :=
  (runLoop_post config.tie_break (engineSeed config) tieOracle store
    (queueLoad (seedQueue requests).1) (seedQueue requests).1
    (initState config) (le_refl _) (initInv config requests h)).2.2.1

theorem claimC10_witness :
    validate_config sampleConfigA = .ok () ∧
      List.Chain' (· ≤ ·)
        (engine_run zeroTieOracle sampleConfigA true [⟨1, 0⟩]).popped_times :=
  ⟨rfl, claimC10_monotone_times sampleConfigA [⟨1, 0⟩] zeroTieOracle true rfl⟩

end LoadBalancerSim
